import Mathlib

/-!
Verification of the Sokoban solver's state model, successor generation,
deadlock analysis, search strategies and solver wrapper, as a shallow
embedding of the Python sources (`state.py`, `search.py`,
`deadlock_detector.py`, `async_solver.py`).

Coordinates are 1-based; Python ints are modelled by `Int`.  Python sets
keyed by value equality are modelled by `Finset`; the visited set of the
searches, whose membership uses `State.__eq__` (player and boxes only), is
modelled by a list of `Config` keys.
-/

namespace Sokoban

/-- `point.py` — `Point(x, y)`, value equality. -/
@[ext]
structure Point where
  x : Int
  y : Int
deriving DecidableEq, Repr

/-- `state.py` — `State.__slots__` minus the debug/cache fields: walls,
boxes, storages, player, move string (as a list of direction characters),
rows, cols, deadlocks.  (`verbose` only gates printing and is omitted;
`_neighbors_cache` is modelled separately by `CState` below.) -/
structure State where
  walls : Finset Point
  boxes : Finset Point
  storages : Finset Point
  player : Point
  move : List Char
  rows : Int
  cols : Int
  deadlocks : Finset Point
deriving DecidableEq

/-- `State.inbound`: `1 <= x <= self.rows and 1 <= y <= self.cols`. -/
def State.inbound (s : State) (x y : Int) : Bool :=
  decide (1 ≤ x ∧ x ≤ s.rows ∧ 1 ≤ y ∧ y ≤ s.cols)

/-- `State.reached_goal`: every box is on a storage. -/
def State.reachedGoal (s : State) : Bool :=
  decide (s.boxes ⊆ s.storages)

/-- `State._try_move(out, ax, ay, bx, by, m)`: the player tries to step to
`(ax, ay)`; a box there is pushed to `(bx, by)`.  Returns the appended
successor as an `Option` instead of mutating an output list. -/
def State.tryMove (s : State) (ax ay bx2 by2 : Int) (m : Char) : Option State :=
  if ¬ s.inbound ax ay then none
  else if (⟨ax, ay⟩ : Point) ∈ s.walls then none
  else
    let attempt : Point := ⟨ax, ay⟩
    if attempt ∉ s.boxes then
      some { s with player := attempt, move := s.move ++ [m] }
    else if ¬ s.inbound bx2 by2 then none
    else
      let newbox : Point := ⟨bx2, by2⟩
      if newbox ∈ s.walls ∨ newbox ∈ s.boxes then none
      else if newbox ∈ s.deadlocks then none
      else
        some { s with
                boxes := insert newbox (s.boxes.erase attempt),
                player := attempt,
                move := s.move ++ [m] }

/-- `State.get_neighbors` (the pure recomputation): successors in direction
order Up, Down, Left, Right. -/
def State.getNeighbors (s : State) : List State :=
  let x := s.player.x
  let y := s.player.y
  (s.tryMove (x - 1) y (x - 2) y 'u').toList ++
  (s.tryMove (x + 1) y (x + 2) y 'd').toList ++
  (s.tryMove x (y - 1) x (y - 2) 'l').toList ++
  (s.tryMove x (y + 1) x (y + 2) 'r').toList

/-- Search identity of a state (`State.__eq__` / `__hash__`): player and
box set only. -/
def Config : Type := Point × Finset Point
deriving DecidableEq

/-- The identity key of a state. -/
def cfg (s : State) : Config := (s.player, s.boxes)

/-- The fields shared untouched by every successor: walls, storages,
rows, cols, deadlocks. -/
def statics (s : State) : Finset Point × Finset Point × Int × Int × Finset Point :=
  (s.walls, s.storages, s.rows, s.cols, s.deadlocks)

/-- The four directions of `get_neighbors`, in source order. -/
inductive Dir
  | up
  | down
  | left
  | right
deriving DecidableEq, Repr

/-- The direction token appended to the move history. -/
def Dir.char : Dir → Char
  | .up => 'u'
  | .down => 'd'
  | .left => 'l'
  | .right => 'r'

/-- A: the player's adjacent cell in direction `d`. -/
def adjA (p : Point) : Dir → Point
  | .up => ⟨p.x - 1, p.y⟩
  | .down => ⟨p.x + 1, p.y⟩
  | .left => ⟨p.x, p.y - 1⟩
  | .right => ⟨p.x, p.y + 1⟩

/-- B: the cell one further than A in direction `d`. -/
def adjB (p : Point) : Dir → Point
  | .up => ⟨p.x - 2, p.y⟩
  | .down => ⟨p.x + 2, p.y⟩
  | .left => ⟨p.x, p.y - 2⟩
  | .right => ⟨p.x, p.y + 2⟩

/-- `_try_move` at the cells of direction `d`, exactly as `get_neighbors`
invokes it. -/
def State.tryMoveDir (s : State) (d : Dir) : Option State :=
  s.tryMove (adjA s.player d).x (adjA s.player d).y
    (adjB s.player d).x (adjB s.player d).y d.char

theorem getNeighbors_eq_dirs (s : State) :
    s.getNeighbors =
      (s.tryMoveDir .up).toList ++ (s.tryMoveDir .down).toList ++
      (s.tryMoveDir .left).toList ++ (s.tryMoveDir .right).toList := rfl

/-- The `Prop` version of `inbound`. -/
def inboundP (s : State) (p : Point) : Prop :=
  1 ≤ p.x ∧ p.x ≤ s.rows ∧ 1 ≤ p.y ∧ p.y ≤ s.cols

instance (s : State) (p : Point) : Decidable (inboundP s p) := by
  unfold inboundP; infer_instance

theorem inbound_eq (s : State) (p : Point) :
    s.inbound p.x p.y = decide (inboundP s p) := rfl

theorem adjB_ne_adjA (p : Point) (d : Dir) : adjB p d ≠ adjA p d := by
  cases d <;> simp [adjA, adjB, Point.ext_iff]

/-- C1, blocked cases: A out of bounds or a wall gives no successor. -/
theorem tryMoveDir_blocked (s : State) (d : Dir)
    (h : ¬ inboundP s (adjA s.player d) ∨ adjA s.player d ∈ s.walls) :
    s.tryMoveDir d = none := by
  rcases h with h | h
  · unfold State.tryMoveDir State.tryMove
    rw [if_pos]
    simp [inbound_eq, h]
  · unfold State.tryMoveDir State.tryMove
    by_cases hin : s.inbound (adjA s.player d).x (adjA s.player d).y
    · rw [if_neg (by simp [hin]), if_pos h]
    · rw [if_pos (by simp [hin])]

/-- C1, plain step: A free gives the player at A, history extended by one
token, boxes unchanged. -/
theorem tryMoveDir_step (s : State) (d : Dir)
    (hin : inboundP s (adjA s.player d))
    (hw : adjA s.player d ∉ s.walls) (hb : adjA s.player d ∉ s.boxes) :
    s.tryMoveDir d =
      some { s with player := adjA s.player d, move := s.move ++ [d.char] } := by
  unfold State.tryMoveDir State.tryMove
  rw [if_neg (by simp [inbound_eq, hin]), if_neg hw, if_pos hb]

/-- C1, push case, full characterization. -/
theorem tryMoveDir_push (s : State) (d : Dir)
    (hin : inboundP s (adjA s.player d))
    (hw : adjA s.player d ∉ s.walls) (hb : adjA s.player d ∈ s.boxes) :
    ((s.tryMoveDir d).isSome ↔
        inboundP s (adjB s.player d) ∧ adjB s.player d ∉ s.walls ∧
        adjB s.player d ∉ s.boxes.erase (adjA s.player d) ∧
        adjB s.player d ∉ s.deadlocks) ∧
    (inboundP s (adjB s.player d) → adjB s.player d ∉ s.walls →
      adjB s.player d ∉ s.boxes.erase (adjA s.player d) →
      adjB s.player d ∉ s.deadlocks →
      s.tryMoveDir d =
        some { s with
                player := adjA s.player d,
                boxes := insert (adjB s.player d) (s.boxes.erase (adjA s.player d)),
                move := s.move ++ [d.char] }) := by
  have hne : adjB s.player d ≠ adjA s.player d := adjB_ne_adjA _ _
  have herase : adjB s.player d ∈ s.boxes.erase (adjA s.player d) ↔
      adjB s.player d ∈ s.boxes := by
    simp [Finset.mem_erase, hne]
  unfold State.tryMoveDir State.tryMove
  rw [if_neg (by simp [inbound_eq, hin]), if_neg hw, if_neg (by simpa using hb)]
  constructor
  · by_cases hinB : inboundP s (adjB s.player d)
    · rw [if_neg (by simp [inbound_eq, hinB])]
      by_cases hwB : adjB s.player d ∈ s.walls ∨ adjB s.player d ∈ s.boxes
      · rw [if_pos hwB]
        simp only [Option.isSome_none, Bool.false_eq_true, false_iff]
        intro ⟨_, h2, h3, _⟩
        rcases hwB with h | h
        · exact h2 h
        · exact h3 (herase.mpr h)
      · rw [if_neg hwB]
        push_neg at hwB
        by_cases hd : adjB s.player d ∈ s.deadlocks
        · rw [if_pos hd]
          simp only [Option.isSome_none, Bool.false_eq_true, false_iff]
          intro ⟨_, _, _, h4⟩
          exact h4 hd
        · rw [if_neg hd]
          simp only [Option.isSome_some, true_iff]
          exact ⟨hinB, hwB.1, fun hc => hwB.2 (herase.mp hc), hd⟩
    · rw [if_pos (by simp [inbound_eq, hinB])]
      simp only [Option.isSome_none, Bool.false_eq_true, false_iff]
      intro ⟨h1, _⟩
      exact hinB h1
  · intro hinB hwB hbB hdB
    rw [if_neg (by simp [inbound_eq, hinB]),
      if_neg (by push_neg; exact ⟨hwB, fun hc => hbB (herase.mpr hc)⟩), if_neg hdB]

/-- C1.  Successor generation per direction: with A the adjacent cell and B
the next cell in direction `d`: if A is out of bounds or a wall there is no
successor; if A is empty the successor has the player at A, one token
appended to the history, and the box set unchanged; if A holds a box, a
successor exists iff B is in bounds, not a wall, not occupied by another
box, and not in the deadlock set, and then the player is at A, the box set
is the old set with A replaced by B, and the history is extended by one
token. -/
theorem c1_try_move (s : State) (d : Dir) :
    ((¬ inboundP s (adjA s.player d) ∨ adjA s.player d ∈ s.walls) →
        s.tryMoveDir d = none) ∧
    (inboundP s (adjA s.player d) → adjA s.player d ∉ s.walls →
      adjA s.player d ∉ s.boxes →
      s.tryMoveDir d =
        some { s with player := adjA s.player d, move := s.move ++ [d.char] }) ∧
    (inboundP s (adjA s.player d) → adjA s.player d ∉ s.walls →
      adjA s.player d ∈ s.boxes →
      ((s.tryMoveDir d).isSome ↔
          inboundP s (adjB s.player d) ∧ adjB s.player d ∉ s.walls ∧
          adjB s.player d ∉ s.boxes.erase (adjA s.player d) ∧
          adjB s.player d ∉ s.deadlocks) ∧
      (inboundP s (adjB s.player d) → adjB s.player d ∉ s.walls →
        adjB s.player d ∉ s.boxes.erase (adjA s.player d) →
        adjB s.player d ∉ s.deadlocks →
        s.tryMoveDir d =
          some { s with
                  player := adjA s.player d,
                  boxes := insert (adjB s.player d) (s.boxes.erase (adjA s.player d)),
                  move := s.move ++ [d.char] })) := by
  exact ⟨tryMoveDir_blocked s d, tryMoveDir_step s d, tryMoveDir_push s d⟩

/-- A concrete 3×3 instance for witnesses: player (1,2), one box at (2,2)
pushable down onto the storage (3,2). -/
def sW : State :=
  { walls := {⟨1, 1⟩}
    boxes := {⟨2, 2⟩}
    storages := {⟨3, 2⟩}
    player := ⟨1, 2⟩
    move := []
    rows := 3
    cols := 3
    deadlocks := ∅ }

/-- What every `some` result of `_try_move` looks like: statics shared,
history extended by the one token, and the box set either unchanged (plain
step) or a single legal substitution (push). -/
theorem tryMove_eq_some {s t : State} {ax ay bx2 by2 : Int} {m : Char}
    (h : s.tryMove ax ay bx2 by2 m = some t) :
    t.walls = s.walls ∧ t.storages = s.storages ∧ t.rows = s.rows ∧
    t.cols = s.cols ∧ t.deadlocks = s.deadlocks ∧ t.move = s.move ++ [m] ∧
    (t.boxes = s.boxes ∨
      ∃ a b : Point, a ∈ s.boxes ∧ b ∉ s.boxes ∧ b ∉ s.walls ∧
        t.boxes = insert b (s.boxes.erase a)) := by
  simp only [State.tryMove] at h
  split_ifs at h with h1 h2 h3 h4 h5 h6
  · push_neg at h5
    cases h
    refine ⟨rfl, rfl, rfl, rfl, rfl, rfl, Or.inr ?_⟩
    exact ⟨⟨ax, ay⟩, ⟨bx2, by2⟩, not_not.mp (by simpa using h3), h5.2, h5.1, rfl⟩
  · cases h
    exact ⟨rfl, rfl, rfl, rfl, rfl, rfl, Or.inl rfl⟩

/-- Membership in `get_neighbors` comes from one `_try_move` call. -/
theorem mem_getNeighbors {s t : State} (ht : t ∈ s.getNeighbors) :
    ∃ ax ay bx2 by2 m, s.tryMove ax ay bx2 by2 m = some t := by
  unfold State.getNeighbors at ht
  simp only [List.mem_append, Option.mem_toList, Option.mem_def] at ht
  rcases ht with ((h | h) | h) | h
  · exact ⟨_, _, _, _, _, h⟩
  · exact ⟨_, _, _, _, _, h⟩
  · exact ⟨_, _, _, _, _, h⟩
  · exact ⟨_, _, _, _, _, h⟩

/-- C6.  Every successor step preserves the state invariants: the box set
stays disjoint from the (unchanged) wall set, the number of boxes is
constant, and the history length grows by exactly one. -/
theorem c6_step_invariants (s t : State) (ht : t ∈ s.getNeighbors)
    (hd : Disjoint s.boxes s.walls) :
    Disjoint t.boxes t.walls ∧ t.boxes.card = s.boxes.card ∧
      t.move.length = s.move.length + 1 ∧ t.walls = s.walls := by
  obtain ⟨ax, ay, bx2, by2, m, h⟩ := mem_getNeighbors ht
  obtain ⟨hw, -, -, -, -, hm, hbx⟩ := tryMove_eq_some h
  refine ⟨?_, ?_, by simp [hm], hw⟩
  · rw [hw]
    rcases hbx with hbx | ⟨a, b, ha, hb, hbw, hbx⟩
    · rwa [hbx]
    · rw [hbx, Finset.disjoint_left]
      intro c hc
      rcases Finset.mem_insert.mp hc with rfl | hc
      · exact hbw
      · exact Finset.disjoint_left.mp hd (Finset.mem_of_mem_erase hc)
  · rcases hbx with hbx | ⟨a, b, ha, hb, hbw, hbx⟩
    · rw [hbx]
    · have hbe : b ∉ s.boxes.erase a := fun hc => hb (Finset.mem_of_mem_erase hc)
      have hpos : 0 < s.boxes.card := Finset.card_pos.mpr ⟨a, ha⟩
      rw [hbx, Finset.card_insert_of_not_mem hbe, Finset.card_erase_of_mem ha]
      omega

theorem c6_step_invariants_witness :
    (sW.tryMoveDir .down).toList ≠ [] ∧ Disjoint sW.boxes sW.walls ∧
      ∃ t ∈ sW.getNeighbors,
        Disjoint t.boxes t.walls ∧ t.boxes.card = sW.boxes.card ∧
          t.move.length = sW.move.length + 1 ∧ t.walls = sW.walls := by
  refine ⟨by decide, by decide, ?_⟩
  have ht : { sW with
      player := adjA sW.player .down,
      boxes := insert (adjB sW.player .down) (sW.boxes.erase (adjA sW.player .down)),
      move := sW.move ++ [Dir.char .down] } ∈ sW.getNeighbors := by decide
  exact ⟨_, ht, c6_step_invariants sW _ ht (by decide)⟩

/-- A state together with the `_neighbors_cache` slot. -/
structure CState where
  st : State
  cache : Option (List State)

/-- `State.get_neighbors` with the cache: return the cached list untouched
when it is filled, otherwise compute, fill the cache, and return. -/
def CState.getNeighbors (c : CState) : List State × CState :=
  match c.cache with
  | some l => (l, c)
  | none =>
      let l := c.st.getNeighbors
      (l, { c with cache := some l })

/-- The cache, when filled, holds the recomputation's value (true of every
cache the code ever fills). -/
def wfCache (c : CState) : Prop := ∀ l, c.cache = some l → l = c.st.getNeighbors

/-- C7.  `successors(state)` is idempotent, ordered and cached: the result
is the Up, Down, Left, Right concatenation of the per-direction moves; the
call changes nothing of the state but the cache slot; a second call returns
the same sequence and the same state; and a filled cache is returned as is,
with no recomputation and no state change. -/
theorem c7_successors (c : CState) (hwf : wfCache c) :
    (c.getNeighbors.1 = c.st.getNeighbors ∧
      c.st.getNeighbors =
        (c.st.tryMoveDir .up).toList ++ (c.st.tryMoveDir .down).toList ++
        (c.st.tryMoveDir .left).toList ++ (c.st.tryMoveDir .right).toList) ∧
    c.getNeighbors.2.st = c.st ∧
    c.getNeighbors.2.getNeighbors = (c.getNeighbors.1, c.getNeighbors.2) ∧
    (∀ l, c.cache = some l → c.getNeighbors = (l, c)) := by
  obtain ⟨s, cc⟩ := c
  cases cc with
  | none => exact ⟨⟨rfl, rfl⟩, rfl, rfl, fun l h => by cases h⟩
  | some l =>
      have hl : l = s.getNeighbors := hwf l rfl
      subst hl
      exact ⟨⟨rfl, rfl⟩, rfl, rfl, fun l h => by cases h; rfl⟩

theorem c7_successors_witness :
    wfCache ⟨sW, none⟩ ∧
      ((⟨sW, none⟩ : CState).getNeighbors.1 = sW.getNeighbors ∧
        sW.getNeighbors =
          (sW.tryMoveDir .up).toList ++ (sW.tryMoveDir .down).toList ++
          (sW.tryMoveDir .left).toList ++ (sW.tryMoveDir .right).toList) ∧
      (⟨sW, none⟩ : CState).getNeighbors.2.st = sW ∧
      (⟨sW, none⟩ : CState).getNeighbors.2.getNeighbors =
        ((⟨sW, none⟩ : CState).getNeighbors.1, (⟨sW, none⟩ : CState).getNeighbors.2) ∧
      (∀ l, (⟨sW, none⟩ : CState).cache = some l →
        (⟨sW, none⟩ : CState).getNeighbors = (l, ⟨sW, none⟩)) := by
  have hwf : wfCache ⟨sW, none⟩ := fun l h => by cases h
  exact ⟨hwf, c7_successors ⟨sW, none⟩ hwf⟩

theorem c1_try_move_witness :
    inboundP sW (adjA sW.player .down) ∧ adjA sW.player .down ∉ sW.walls ∧
      adjA sW.player .down ∈ sW.boxes ∧
      (sW.tryMoveDir .down).isSome = true := by
  have h1 : inboundP sW (adjA sW.player .down) := by decide
  have h2 : adjA sW.player .down ∉ sW.walls := by decide
  have h3 : adjA sW.player .down ∈ sW.boxes := by decide
  refine ⟨h1, h2, h3, ?_⟩
  exact (((c1_try_move sW .down).2.2 h1 h2 h3).1).mpr
    ⟨by decide, by decide, by decide, by decide⟩

/-! ## `deadlock_detector.py` -/

/-- The static facts the detector reads from `Sokoban`: walls, storages,
width, height. -/
structure Board where
  walls : Finset Point
  storages : Finset Point
  width : Int
  height : Int

/-- `find_nearest_upbound`: scan `x` from `a.x - 1` down while `x >= 0`;
a wall returns its row, a storage returns `-1`, falling off returns `0`.
The fuel argument counts the remaining rows, `x + 1`. -/
def scanUp (walls storages : Finset Point) (y : Int) : Nat → Int
  | 0 => 0
  | k + 1 =>
    if (⟨(k : Int), y⟩ : Point) ∈ walls then (k : Int)
    else if (⟨(k : Int), y⟩ : Point) ∈ storages then -1
    else scanUp walls storages y k

def findNearestUpbound (B : Board) (a : Point) : Int :=
  scanUp B.walls B.storages a.y a.x.toNat

/-- `find_nearest_downbound`: scan `x` from `a.x + 1` up while
`x < height`; a wall returns its row, a storage returns `-1`, falling off
returns `height`.  The fuel argument counts the remaining rows. -/
def scanDown (walls storages : Finset Point) (height y : Int) : Nat → Int → Int
  | 0, _ => height
  | k + 1, x =>
    if (⟨x, y⟩ : Point) ∈ walls then x
    else if (⟨x, y⟩ : Point) ∈ storages then -1
    else scanDown walls storages height y k (x + 1)

def findNearestDownbound (B : Board) (a : Point) : Int :=
  scanDown B.walls B.storages B.height a.y (B.height - (a.x + 1)).toNat (a.x + 1)

/-- `find_nearest_rightbound`: scan `y` from `a.y + 1` up while
`y < width`; wall returns its column, storage returns `-1`, falling off
returns `width`. -/
def scanRight (walls storages : Finset Point) (width x : Int) : Nat → Int → Int
  | 0, _ => width
  | k + 1, y =>
    if (⟨x, y⟩ : Point) ∈ walls then y
    else if (⟨x, y⟩ : Point) ∈ storages then -1
    else scanRight walls storages width x k (y + 1)

def findNearestRightbound (B : Board) (a : Point) : Int :=
  scanRight B.walls B.storages B.width a.x (B.width - (a.y + 1)).toNat (a.y + 1)

/-- `find_nearest_leftbound`: scan `y` from `a.y - 1` down while `y >= 0`;
wall returns its column, storage returns `-1`, falling off returns `0`. -/
def scanLeft (walls storages : Finset Point) (x : Int) : Nat → Int
  | 0 => 0
  | k + 1 =>
    if (⟨x, (k : Int)⟩ : Point) ∈ walls then (k : Int)
    else if (⟨x, (k : Int)⟩ : Point) ∈ storages then -1
    else scanLeft walls storages x k

def findNearestLeftbound (B : Board) (a : Point) : Int :=
  scanLeft B.walls B.storages a.x a.y.toNat

/-- `corner_test`: two perpendicular wall neighbors. -/
def cornerTest (B : Board) (c : Point) : Bool :=
  let up : Point := ⟨c.x - 1, c.y⟩
  let down : Point := ⟨c.x + 1, c.y⟩
  let right : Point := ⟨c.x, c.y + 1⟩
  let left : Point := ⟨c.x, c.y - 1⟩
  decide ((up ∈ B.walls ∧ right ∈ B.walls) ∨ (up ∈ B.walls ∧ left ∈ B.walls) ∨
    (down ∈ B.walls ∧ left ∈ B.walls) ∨ (down ∈ B.walls ∧ right ∈ B.walls))

/-- `boundary_test`: for the first wall-adjacent side found (left, right,
up, down, in source order), take the two perpendicular bounds; `-1` from
either scan means "storage reached" and fails the test; otherwise every
cell strictly between the bounds, one step toward the adjacent wall, must
be a wall. -/
def boundaryTest (B : Board) (c : Point) : Bool :=
  let x := c.x
  let y := c.y
  if (⟨x, y - 1⟩ : Point) ∈ B.walls then
    let upbound := findNearestUpbound B c
    let downbound := findNearestDownbound B c
    if upbound = -1 ∨ downbound = -1 then false
    else decide (∀ m ∈ Finset.Ico (upbound + 1) downbound, (⟨m, y - 1⟩ : Point) ∈ B.walls)
  else if (⟨x, y + 1⟩ : Point) ∈ B.walls then
    let upbound := findNearestUpbound B c
    let downbound := findNearestDownbound B c
    if upbound = -1 ∨ downbound = -1 then false
    else decide (∀ m ∈ Finset.Ico (upbound + 1) downbound, (⟨m, y + 1⟩ : Point) ∈ B.walls)
  else if (⟨x - 1, y⟩ : Point) ∈ B.walls then
    let rightbound := findNearestRightbound B c
    let leftbound := findNearestLeftbound B c
    if leftbound = -1 ∨ rightbound = -1 then false
    else decide (∀ m ∈ Finset.Ico (leftbound + 1) rightbound, (⟨x - 1, m⟩ : Point) ∈ B.walls)
  else if (⟨x + 1, y⟩ : Point) ∈ B.walls then
    let rightbound := findNearestRightbound B c
    let leftbound := findNearestLeftbound B c
    if leftbound = -1 ∨ rightbound = -1 then false
    else decide (∀ m ∈ Finset.Ico (leftbound + 1) rightbound, (⟨x + 1, m⟩ : Point) ∈ B.walls)
  else false

/-- `find_deadlock`: every in-grid cell that is neither wall nor storage
and passes the corner test or the boundary test. -/
def findDeadlock (B : Board) : Finset Point :=
  ((Finset.Icc (1 : Int) B.height ×ˢ Finset.Icc (1 : Int) B.width).filter
    (fun ij => (⟨ij.1, ij.2⟩ : Point) ∉ B.walls ∧ (⟨ij.1, ij.2⟩ : Point) ∉ B.storages ∧
      (cornerTest B ⟨ij.1, ij.2⟩ = true ∨ boundaryTest B ⟨ij.1, ij.2⟩ = true))).image
    (fun ij => (⟨ij.1, ij.2⟩ : Point))

/-- C8.  Deadlock soundness: every flagged coordinate is a free cell,
neither a wall nor a storage. -/
theorem c8_deadlock_free (B : Board) (p : Point) (hp : p ∈ findDeadlock B) :
    p ∉ B.walls ∧ p ∉ B.storages := by
  unfold findDeadlock at hp
  obtain ⟨ij, hij, hpe⟩ := Finset.mem_image.mp hp
  obtain ⟨-, hw, hs, -⟩ := Finset.mem_filter.mp hij
  exact hpe ▸ ⟨hw, hs⟩

/-- Corner-test board for the C8 witness: (2,2) has walls above and to its
left. -/
def bW : Board :=
  { walls := {⟨1, 2⟩, ⟨2, 1⟩}
    storages := {⟨3, 3⟩}
    width := 3
    height := 3 }

theorem c8_deadlock_free_witness :
    (⟨2, 2⟩ : Point) ∈ findDeadlock bW ∧
      (⟨2, 2⟩ : Point) ∉ bW.walls ∧ (⟨2, 2⟩ : Point) ∉ bW.storages := by
  have h : (⟨2, 2⟩ : Point) ∈ findDeadlock bW := by decide
  exact ⟨h, c8_deadlock_free bW _ h⟩

/-- The board of the wall-corridor failure: column 1 is all wall, one
storage at (3,2), nothing else. -/
def b0 : Board :=
  { walls := {⟨1, 1⟩, ⟨2, 1⟩, ⟨3, 1⟩}
    storages := {⟨3, 2⟩}
    width := 3
    height := 3 }

/-- The state with a box on the flagged cell (2,2) and the player above
it, carrying the detector's own deadlock set. -/
def s3 : State :=
  { walls := b0.walls
    boxes := {⟨2, 2⟩}
    storages := b0.storages
    player := ⟨1, 2⟩
    move := []
    rows := 3
    cols := 3
    deadlocks := findDeadlock b0 }

/-- C3 (failing input).  On `b0`, the downward scan from (2,2) stops at the
grid edge (`while x < height` never examines row `height`) and reports the
bound `height` as if a wall had been hit, although the first cell in that
direction, (3,2), is a storage; (2,2) is flagged as a deadlock, yet a box
there is pushed onto that storage in one move. -/
theorem c3_boundary_scan_failing_input :
    findNearestDownbound b0 ⟨2, 2⟩ = b0.height ∧
      (⟨3, 2⟩ : Point) ∈ b0.storages ∧
      boundaryTest b0 ⟨2, 2⟩ = true ∧
      (⟨2, 2⟩ : Point) ∈ findDeadlock b0 ∧
      ∃ t ∈ s3.getNeighbors, t.reachedGoal = true := by
  refine ⟨by decide, by decide, by decide, by decide, ?_⟩
  refine ⟨{ s3 with
      player := ⟨2, 2⟩,
      boxes := insert ⟨3, 2⟩ (s3.boxes.erase ⟨2, 2⟩),
      move := s3.move ++ ['d'] }, by decide, by decide⟩

/-! ## Heuristics (`state.py` `manhatten`/`euclidean`, `search.py` inner `h`) -/

/-- L1 distance between two points. -/
def dist1 (p q : Point) : ℤ := |p.x - q.x| + |p.y - q.y|

/-- L2 distance between two points (`math.hypot`). -/
noncomputable def dist2 (p q : Point) : ℝ :=
  Real.sqrt (((p.x : ℝ) - q.x) ^ 2 + ((p.y : ℝ) - q.y) ^ 2)

/-- `State.manhatten`: nearest-box distance for the player plus, for each
box, its nearest-storage distance.  `none` models the `ValueError` raised
by `min` over no storages when there is at least one box. -/
def State.manhatten (s : State) : Option ℤ :=
  if hb : s.boxes.Nonempty then
    if hg : s.storages.Nonempty then
      some (s.boxes.inf' hb (fun b => dist1 s.player b) +
        s.boxes.sum fun b => s.storages.inf' hg fun g => dist1 b g)
    else none
  else some 0

/-- `State.euclidean`: the same with `math.hypot`. -/
noncomputable def State.euclidean (s : State) : Option ℝ :=
  if hb : s.boxes.Nonempty then
    if hg : s.storages.Nonempty then
      some (s.boxes.inf' hb (fun b => dist2 s.player b) +
        s.boxes.sum fun b => s.storages.inf' hg fun g => dist2 b g)
    else none
  else some 0

/-- The inner `h` closure of `greedy`/`astar` (`search.py`): dispatch on
the heuristic name, `"euclidean"` first, then `"manhatten"`, anything else
constantly 0.  `Except` carries the `ValueError` a heuristic may raise. -/
noncomputable def hSelect (heuristic : String) (s : State) : Except String ℝ :=
  if heuristic = "euclidean" then
    match s.euclidean with
    | some v => .ok v
    | none => .error "min() arg is an empty sequence"
  else if heuristic = "manhatten" then
    match s.manhatten with
    | some v => .ok (v : ℝ)
    | none => .error "min() arg is an empty sequence"
  else .ok 0

/-- Modelled from the spec's words, for comparison with the code: "h(state)
= distance(player, nearest box) + Σ over boxes of distance(box, nearest
storage)", generic in the distance. -/
noncomputable def specH (d : Point → Point → ℝ) (s : State)
    (hb : s.boxes.Nonempty) (hg : s.storages.Nonempty) : ℝ :=
  s.boxes.inf' hb (fun b => d s.player b) +
    s.boxes.sum fun b => s.storages.inf' hg fun g => d b g

theorem intCast_inf' {β : Type} (s : Finset β) (hs : s.Nonempty) (f : β → ℤ) :
    ((s.inf' hs f : ℤ) : ℝ) = s.inf' hs fun b => (f b : ℝ) := by
  refine hs.cons_induction ?_ ?_ <;> intros <;>
    simp [Finset.inf'_cons, inf_eq_min, Int.cast_min, *]

/-- The state of the C4 counterexample: player (1,1), one box (2,2), one
storage (3,3). -/
def s4 : State :=
  { walls := ∅
    boxes := {⟨2, 2⟩}
    storages := {⟨3, 3⟩}
    player := ⟨1, 1⟩
    move := []
    rows := 3
    cols := 3
    deadlocks := ∅ }

/-- C4 (counterexample).  Selecting the heuristic by the name
`"manhattan"` does not give the L1 formula: the dispatch recognises only
`"manhatten"` and `"euclidean"` and falls through to the constant 0, while
the formula's value on `s4` is 4. -/
theorem c4_manhattan_name_cex :
    hSelect "manhattan" s4 ≠
      .ok (specH (fun p q => (dist1 p q : ℝ)) s4 ⟨⟨2, 2⟩, by decide⟩
        ⟨⟨3, 3⟩, by decide⟩) := by
  have hline : hSelect "manhattan" s4 = .ok 0 := by
    unfold hSelect
    rw [if_neg (by decide), if_neg (by decide)]
  have hval : specH (fun p q => (dist1 p q : ℝ)) s4 ⟨⟨2, 2⟩, by decide⟩
      ⟨⟨3, 3⟩, by decide⟩ = 4 := by
    norm_num [specH, s4, Finset.inf'_singleton, Finset.sum_singleton, dist1]
  rw [hline, hval]
  intro h
  exact absurd (Except.ok.inj h) (by norm_num)

/-- C4 (amended).  The heuristic is selectable by the names `"manhatten"`
and `"euclidean"` (the spelling the code uses); for states with at least
one box and one storage the selected value is the spec formula with L1,
resp. L2, distance; every other name, including `"manhattan"`, selects the
constant-0 heuristic. -/
theorem c4_heuristic_selection (s : State) (hb : s.boxes.Nonempty)
    (hg : s.storages.Nonempty) :
    hSelect "manhatten" s = .ok (specH (fun p q => (dist1 p q : ℝ)) s hb hg) ∧
    hSelect "euclidean" s = .ok (specH dist2 s hb hg) ∧
    hSelect "manhattan" s = .ok 0 := by
  refine ⟨?_, ?_, ?_⟩
  · unfold hSelect
    rw [if_neg (by decide), if_pos rfl]
    unfold State.manhatten
    rw [dif_pos hb, dif_pos hg]
    have : ((s.boxes.inf' hb (fun b => dist1 s.player b) +
        s.boxes.sum fun b => s.storages.inf' hg fun g => dist1 b g : ℤ) : ℝ) =
        specH (fun p q => (dist1 p q : ℝ)) s hb hg := by
      unfold specH
      push_cast
      rw [intCast_inf']
      congr 1
      refine Finset.sum_congr rfl fun b _ => ?_
      rw [intCast_inf']
    rw [← this]
  · unfold hSelect
    rw [if_pos rfl]
    unfold State.euclidean
    rw [dif_pos hb, dif_pos hg]
    rfl
  · unfold hSelect
    rw [if_neg (by decide), if_neg (by decide)]

theorem c4_heuristic_selection_witness :
    ∃ hb : s4.boxes.Nonempty, ∃ hg : s4.storages.Nonempty,
      hSelect "manhatten" s4 =
          .ok (specH (fun p q => (dist1 p q : ℝ)) s4 hb hg) ∧
        hSelect "euclidean" s4 = .ok (specH dist2 s4 hb hg) ∧
        hSelect "manhattan" s4 = .ok 0 :=
  ⟨⟨⟨2, 2⟩, by decide⟩, ⟨⟨3, 3⟩, by decide⟩,
    c4_heuristic_selection s4 ⟨⟨2, 2⟩, by decide⟩ ⟨⟨3, 3⟩, by decide⟩⟩

/-! ## `async_solver.py` — progress channel and worker result -/

/-- `queue.Queue.put_nowait`: `Full` exactly when a positive `maxsize` is
already reached; otherwise append at the tail. -/
def putNowait {α : Type} (maxsize : Nat) (items : List α) (x : α) :
    Except Unit (List α) :=
  if 0 < maxsize ∧ maxsize ≤ items.length then .error () else .ok (items ++ [x])

/-- `progress_q = queue.Queue()`: the default, unbounded maxsize. -/
def progressQMaxsize : Nat := 0

/-- The `progress_cb` closure: `put_nowait`, with `Full` swallowed. -/
def progressCb {α : Type} (items : List α) (x : α) : List α :=
  match putNowait progressQMaxsize items x with
  | .ok l => l
  | .error _ => items

/-- `poll_progress`: `get_nowait`, with `Empty` turned into `None`. -/
def pollProgress {α : Type} (items : List α) : Option α × List α :=
  match items with
  | [] => (none, [])
  | x :: rest => (some x, rest)

/-- C9 (counterexample).  Two reports with no read in between leave two
pending updates, and the poll then returns the older one: the channel is
an unbounded FIFO queue, not a one-slot latest-value-wins mailbox. -/
theorem c9_channel_cex :
    (progressCb (progressCb ([] : List (Nat × Nat)) (1, 10)) (2, 20)).length = 2 ∧
      (pollProgress
        (progressCb (progressCb ([] : List (Nat × Nat)) (1, 10)) (2, 20))).1 =
        some (1, 10) := by
  constructor <;> rfl

/-- C9 (amended).  The progress channel is an unbounded FIFO queue: the
producer never blocks and never drops (every report is appended and an
unread one is retained), and the caller's non-blocking poll returns the
oldest pending update, or nothing when the channel is empty. -/
theorem c9_channel_unbounded_fifo (α : Type) :
    (∀ (items : List α) (x : α), progressCb items x = items ++ [x]) ∧
    (∀ (x : α) (rest : List α), pollProgress (x :: rest) = (some x, rest)) ∧
    pollProgress ([] : List α) = (none, []) := by
  refine ⟨fun items x => ?_, fun x rest => rfl, rfl⟩
  unfold progressCb putNowait progressQMaxsize
  rw [if_neg (by simp)]

/-- `SolverResult` without the wall-clock `elapsed` field. -/
structure SolverResult where
  ok : Bool
  path : Option (List Char)
  expanded : Nat
  reason : String
deriving DecidableEq

/-- The tail of `AsyncSolver.start`'s `worker`: package the engine's
outcome, an exception being caught and turned into a failure result. -/
def workerResult (res : Except String (List Char)) (cancelSet : Bool)
    (expandedSnapshot : Nat) : SolverResult :=
  match res with
  | .ok path =>
      if path ≠ [] then
        { ok := true, path := some path, expanded := expandedSnapshot, reason := "" }
      else
        { ok := false, path := none, expanded := expandedSnapshot,
          reason := if cancelSet then "canceled" else "no-solution" }
  | .error e =>
      { ok := false, path := none, expanded := expandedSnapshot,
        reason := "error: " ++ e }

/-! ## `search.py` — the six `*_return_path` strategies

Each strategy is embedded with a fuel argument; `none` marks fuel
exhaustion (the Python loops run unboundedly), `some r` the value the
Python function returns.  The cancel callback is modelled as a function of
the expansion count at which it is polled, returning `Except` to model a
callback that raises. -/

/-- `Search.CHECK_EVERY`. -/
def CHECK_EVERY : Nat := 2048

/-- The polled cancel callback, indexed by the expansion count of the
poll. -/
def StopCb : Type := Nat → Except String Bool

/-- `Search._should_stop`: short-circuit `stop_cb and expanded %
CHECK_EVERY == 0 and stop_cb()`, any exception meaning "do not stop". -/
def shouldStop (stop : Option StopCb) (expanded : Nat) : Bool :=
  match stop with
  | none => false
  | some cb =>
      if expanded % CHECK_EVERY = 0 then
        match cb expanded with
        | .ok b => b
        | .error _ => false
      else false

/-- BFS inner loop body: enqueue a neighbor unless its key is visited,
marking it visited at enqueue time. -/
def bfsStep (acc : List State × List Config) (e : State) : List State × List Config :=
  if cfg e ∈ acc.2 then acc else (acc.1 ++ [e], acc.2 ++ [cfg e])

/-- `Search.bfs_return_path`'s loop.  Also returns the list of states
enqueued during the run (the ghost trace of `q.append`). -/
def bfsAux (stop : Option StopCb) :
    Nat → List State → List Config → Nat → Option (List Char) × List State
  | 0, _, _, _ => (none, [])
  | fuel + 1, q, v, expanded =>
    match q with
    | [] => (some [], [])
    | curr :: rest =>
      if curr.reachedGoal then (some curr.move, [])
      else
        let qv := curr.getNeighbors.foldl bfsStep (rest, v)
        let expanded' := expanded + 1
        if shouldStop stop expanded' then (some [], qv.1.drop rest.length)
        else
          let r := bfsAux stop fuel qv.1 qv.2 expanded'
          (r.1, qv.1.drop rest.length ++ r.2)

def bfsReturnPath (stop : Option StopCb) (fuel : Nat) (root : State) :
    Option (List Char) × List State :=
  let r := bfsAux stop fuel [root] [cfg root] 0
  (r.1, root :: r.2)

/-- DFS inner loop body: the stack's top is the list head, so Python's
`append`/`pop()` pair becomes `cons`/head. -/
def dfsStep (acc : List State × List Config) (e : State) : List State × List Config :=
  if cfg e ∈ acc.2 then acc else (e :: acc.1, acc.2 ++ [cfg e])

/-- `Search.dfs_return_path`'s loop. -/
def dfsAux (stop : Option StopCb) :
    Nat → List State → List Config → Nat → Option (List Char)
  | 0, _, _, _ => none
  | fuel + 1, st, v, expanded =>
    match st with
    | [] => some []
    | curr :: rest =>
      if curr.reachedGoal then some curr.move
      else
        let sv := curr.getNeighbors.foldl dfsStep (rest, v)
        let expanded' := expanded + 1
        if shouldStop stop expanded' then some []
        else dfsAux stop fuel sv.1 sv.2 expanded'

def dfsReturnPath (stop : Option StopCb) (fuel : Nat) (root : State) :
    Option (List Char) :=
  dfsAux stop fuel [root] [cfg root] 0

/-- How one iterative-deepening pass ends. -/
inductive PassOut
  | found : List Char → PassOut
  | stopped : PassOut
  | exhausted : PassOut

/-- IDS inner loop body: push a neighbor only when unvisited and within
the current depth limit. -/
def idsStep (limit : Nat) (acc : List State × List Config) (e : State) :
    List State × List Config :=
  if cfg e ∉ acc.2 ∧ e.move.length ≤ limit then (e :: acc.1, acc.2 ++ [cfg e])
  else acc

/-- One depth-limited pass of `Search.ids_return_path`. -/
def idsPass (stop : Option StopCb) (limit : Nat) :
    Nat → List State → List Config → Nat → Option PassOut
  | 0, _, _, _ => none
  | fuel + 1, st, v, expanded =>
    match st with
    | [] => some .exhausted
    | curr :: rest =>
      if curr.reachedGoal then some (.found curr.move)
      else
        let sv := curr.getNeighbors.foldl (idsStep limit) (rest, v)
        let expanded' := expanded + 1
        if shouldStop stop expanded' then some .stopped
        else idsPass stop limit fuel sv.1 sv.2 expanded'

/-- The outer `while limit <= max_limit` loop of `ids_return_path`: each
pass restarts from the root with a fresh visited set and expansion
counter. -/
def idsOuter (stop : Option StopCb) (root : State)
    (innerFuel depth_step max_limit : Nat) : Nat → Nat → Option (List Char)
  | 0, _ => none
  | ofl + 1, limit =>
    if limit ≤ max_limit then
      match idsPass stop limit innerFuel [root] [cfg root] 0 with
      | none => none
      | some (.found p) => some p
      | some .stopped => some []
      | some .exhausted =>
          idsOuter stop root innerFuel depth_step max_limit ofl (limit + depth_step)
    else some []

def idsReturnPath (stop : Option StopCb) (innerFuel outerFuel : Nat)
    (root : State) : Option (List Char) :=
  idsOuter stop root innerFuel 10 500 outerFuel 50

/-- `heapq` pop, modelled by its contract: remove the entry with the least
(priority, insertion count) pair; distinct counts make the minimum unique.
The carried loop in `popMinGo` keeps the first minimum on (impossible)
full ties. -/
def popMinGo {P : Type} [LinearOrder P] (best : P × Nat × State)
    (acc : List (P × Nat × State)) :
    List (P × Nat × State) → (P × Nat × State) × List (P × Nat × State)
  | [] => (best, acc.reverse)
  | e :: rest =>
    if e.1 < best.1 ∨ (e.1 = best.1 ∧ e.2.1 < best.2.1) then
      popMinGo e (best :: acc) rest
    else popMinGo best (e :: acc) rest

def popMin {P : Type} [LinearOrder P] :
    List (P × Nat × State) → Option ((P × Nat × State) × List (P × Nat × State))
  | [] => none
  | e :: rest => some (popMinGo e [] rest)

/-- `best_g` lookup, a dict keyed by search identity. -/
def lookupG (bg : List (Config × Nat)) (c : Config) : Option Nat :=
  (bg.find? fun p => decide (p.1 = c)).map (·.2)

/-- UCS inner loop body: reinsert on a strictly better path length,
recording the improvement in `best_g`. -/
def ucsStep (acc : List (Nat × Nat × State) × List (Config × Nat) × Nat)
    (e : State) : List (Nat × Nat × State) × List (Config × Nat) × Nat :=
  let g2 := e.move.length
  let push : Bool :=
    match lookupG acc.2.1 (cfg e) with
    | none => true
    | some gOld => decide (g2 < gOld)
  if push then (acc.1 ++ [(g2, acc.2.2, e)], (cfg e, g2) :: acc.2.1, acc.2.2 + 1)
  else acc

/-- `Search.ucs_return_path`'s loop. -/
def ucsAux (stop : Option StopCb) :
    Nat → List (Nat × Nat × State) → List (Config × Nat) → Nat → Nat →
      Option (List Char)
  | 0, _, _, _, _ => none
  | fuel + 1, pq, bg, counter, expanded =>
    match popMin pq with
    | none => some []
    | some (en, pq') =>
      if en.2.2.reachedGoal then some en.2.2.move
      else
        let acc := en.2.2.getNeighbors.foldl ucsStep (pq', bg, counter)
        let expanded' := expanded + 1
        if shouldStop stop expanded' then some []
        else ucsAux stop fuel acc.1 acc.2.1 acc.2.2 expanded'

def ucsReturnPath (stop : Option StopCb) (fuel : Nat) (root : State) :
    Option (List Char) :=
  ucsAux stop fuel [(0, 0, root)] [(cfg root, 0)] 1 0

/-- Greedy inner loop body: an unvisited neighbor is marked visited and
pushed with its heuristic value; a heuristic exception aborts the loop. -/
noncomputable def greedyFold (h : State → Except String ℝ) :
    List State → List (ℝ × Nat × State) × List Config × Nat →
      Except String (List (ℝ × Nat × State) × List Config × Nat)
  | [], acc => .ok acc
  | e :: rest, acc =>
    if cfg e ∈ acc.2.1 then greedyFold h rest acc
    else
      match h e with
      | .error msg => .error msg
      | .ok he =>
          greedyFold h rest
            (acc.1 ++ [(he, acc.2.2, e)], acc.2.1 ++ [cfg e], acc.2.2 + 1)

/-- `Search.greedy_return_path`'s loop. -/
noncomputable def greedyAux (h : State → Except String ℝ)
    (stop : Option StopCb) :
    Nat → List (ℝ × Nat × State) → List Config → Nat → Nat →
      Option (Except String (List Char))
  | 0, _, _, _, _ => none
  | fuel + 1, pq, v, counter, expanded =>
    match popMin pq with
    | none => some (.ok [])
    | some (en, pq') =>
      if en.2.2.reachedGoal then some (.ok en.2.2.move)
      else
        match greedyFold h en.2.2.getNeighbors (pq', v, counter) with
        | .error msg => some (.error msg)
        | .ok acc =>
          let expanded' := expanded + 1
          if shouldStop stop expanded' then some (.ok [])
          else greedyAux h stop fuel acc.1 acc.2.1 acc.2.2 expanded'

/-- `greedy_return_path` pushes `h(state)` for the root first; a heuristic
exception there propagates before the loop starts. -/
noncomputable def greedyReturnPath (h : State → Except String ℝ)
    (stop : Option StopCb) (fuel : Nat) (root : State) :
    Option (Except String (List Char)) :=
  match h root with
  | .error msg => some (.error msg)
  | .ok h0 => greedyAux h stop fuel [(h0, 0, root)] [cfg root] 1 0

/-- A* inner loop body: reinsert on strict `g` improvement with priority
`f = g2 + h(e)`. -/
noncomputable def astarFold (h : State → Except String ℝ) (g : Nat) :
    List State → List (ℝ × Nat × State) × List (Config × Nat) × Nat →
      Except String (List (ℝ × Nat × State) × List (Config × Nat) × Nat)
  | [], acc => .ok acc
  | e :: rest, acc =>
    let g2 := g + 1
    let push : Bool :=
      match lookupG acc.2.1 (cfg e) with
      | none => true
      | some gOld => decide (g2 < gOld)
    if push then
      match h e with
      | .error msg => .error msg
      | .ok he =>
          astarFold h g rest
            (acc.1 ++ [((g2 : ℝ) + he, acc.2.2, e)], (cfg e, g2) :: acc.2.1,
              acc.2.2 + 1)
    else astarFold h g rest acc

/-- `Search.astar_return_path`'s loop. -/
noncomputable def astarAux (h : State → Except String ℝ)
    (stop : Option StopCb) :
    Nat → List (ℝ × Nat × State) → List (Config × Nat) → Nat → Nat →
      Option (Except String (List Char))
  | 0, _, _, _, _ => none
  | fuel + 1, pq, bg, counter, expanded =>
    match popMin pq with
    | none => some (.ok [])
    | some (en, pq') =>
      if en.2.2.reachedGoal then some (.ok en.2.2.move)
      else
        match astarFold h en.2.2.move.length en.2.2.getNeighbors
            (pq', bg, counter) with
        | .error msg => some (.error msg)
        | .ok acc =>
          let expanded' := expanded + 1
          if shouldStop stop expanded' then some (.ok [])
          else astarAux h stop fuel acc.1 acc.2.1 acc.2.2 expanded'

noncomputable def astarReturnPath (h : State → Except String ℝ)
    (stop : Option StopCb) (fuel : Nat) (root : State) :
    Option (Except String (List Char)) :=
  astarAux h stop fuel [((0 : ℝ), 0, root)] [(cfg root, 0)] 1 0

/-! ## C10 — a raising cancel callback is swallowed -/

theorem shouldStop_error (cb : StopCb)
    (hcb : ∀ k, ∃ msg, cb k = Except.error msg) (e : Nat) :
    shouldStop (some cb) e = false := by
  obtain ⟨msg, hm⟩ := hcb e
  simp only [shouldStop, hm]
  split_ifs <;> rfl

theorem shouldStop_none (e : Nat) : shouldStop none e = false := rfl

theorem bfsAux_cb_error (cb : StopCb)
    (hcb : ∀ k, ∃ msg, cb k = Except.error msg) :
    ∀ fuel q v e, bfsAux (some cb) fuel q v e = bfsAux none fuel q v e := by
  intro fuel
  induction fuel with
  | zero => intro q v e; rfl
  | succ f ih =>
      intro q v e
      cases q with
      | nil => rfl
      | cons curr rest =>
          simp only [bfsAux, shouldStop_error cb hcb, shouldStop_none,
            Bool.false_eq_true, if_false, ih]

theorem dfsAux_cb_error (cb : StopCb)
    (hcb : ∀ k, ∃ msg, cb k = Except.error msg) :
    ∀ fuel st v e, dfsAux (some cb) fuel st v e = dfsAux none fuel st v e := by
  intro fuel
  induction fuel with
  | zero => intro st v e; rfl
  | succ f ih =>
      intro st v e
      cases st with
      | nil => rfl
      | cons curr rest =>
          simp only [dfsAux, shouldStop_error cb hcb, shouldStop_none,
            Bool.false_eq_true, if_false, ih]

theorem idsPass_cb_error (cb : StopCb)
    (hcb : ∀ k, ∃ msg, cb k = Except.error msg) (limit : Nat) :
    ∀ fuel st v e,
      idsPass (some cb) limit fuel st v e = idsPass none limit fuel st v e := by
  intro fuel
  induction fuel with
  | zero => intro st v e; rfl
  | succ f ih =>
      intro st v e
      cases st with
      | nil => rfl
      | cons curr rest =>
          simp only [idsPass, shouldStop_error cb hcb, shouldStop_none,
            Bool.false_eq_true, if_false, ih]

theorem idsOuter_cb_error (cb : StopCb)
    (hcb : ∀ k, ∃ msg, cb k = Except.error msg) (root : State)
    (innerFuel depth_step max_limit : Nat) :
    ∀ outerFuel limit,
      idsOuter (some cb) root innerFuel depth_step max_limit outerFuel limit =
        idsOuter none root innerFuel depth_step max_limit outerFuel limit := by
  intro outerFuel
  induction outerFuel with
  | zero => intro limit; rfl
  | succ f ih =>
      intro limit
      simp only [idsOuter, idsPass_cb_error cb hcb, ih]

theorem ucsAux_cb_error (cb : StopCb)
    (hcb : ∀ k, ∃ msg, cb k = Except.error msg) :
    ∀ fuel pq bg counter e,
      ucsAux (some cb) fuel pq bg counter e = ucsAux none fuel pq bg counter e := by
  intro fuel
  induction fuel with
  | zero => intro pq bg counter e; rfl
  | succ f ih =>
      intro pq bg counter e
      simp only [ucsAux, shouldStop_error cb hcb, shouldStop_none,
        Bool.false_eq_true, if_false, ih]

theorem greedyAux_cb_error (h : State → Except String ℝ) (cb : StopCb)
    (hcb : ∀ k, ∃ msg, cb k = Except.error msg) :
    ∀ fuel pq v counter e,
      greedyAux h (some cb) fuel pq v counter e =
        greedyAux h none fuel pq v counter e := by
  intro fuel
  induction fuel with
  | zero => intro pq v counter e; rfl
  | succ f ih =>
      intro pq v counter e
      simp only [greedyAux, shouldStop_error cb hcb, shouldStop_none,
        Bool.false_eq_true, if_false, ih]

theorem astarAux_cb_error (h : State → Except String ℝ) (cb : StopCb)
    (hcb : ∀ k, ∃ msg, cb k = Except.error msg) :
    ∀ fuel pq bg counter e,
      astarAux h (some cb) fuel pq bg counter e =
        astarAux h none fuel pq bg counter e := by
  intro fuel
  induction fuel with
  | zero => intro pq bg counter e; rfl
  | succ f ih =>
      intro pq bg counter e
      simp only [astarAux, shouldStop_error cb hcb, shouldStop_none,
        Bool.false_eq_true, if_false, ih]

/-- C10.  A cancel callback that raises when polled is treated as "do not
cancel" by `_should_stop`, and every strategy then runs exactly as it
would with no callback at all: the exception never escapes the engine. -/
theorem c10_raising_callback_swallowed (cb : StopCb)
    (hcb : ∀ k, ∃ msg, cb k = Except.error msg) :
    (∀ e, shouldStop (some cb) e = false) ∧
    (∀ fuel root, bfsReturnPath (some cb) fuel root = bfsReturnPath none fuel root) ∧
    (∀ fuel root, dfsReturnPath (some cb) fuel root = dfsReturnPath none fuel root) ∧
    (∀ innerFuel outerFuel root,
      idsReturnPath (some cb) innerFuel outerFuel root =
        idsReturnPath none innerFuel outerFuel root) ∧
    (∀ fuel root, ucsReturnPath (some cb) fuel root = ucsReturnPath none fuel root) ∧
    (∀ h fuel root,
      greedyReturnPath h (some cb) fuel root = greedyReturnPath h none fuel root) ∧
    (∀ h fuel root,
      astarReturnPath h (some cb) fuel root = astarReturnPath h none fuel root) := by
  refine ⟨shouldStop_error cb hcb, ?_, ?_, ?_, ?_, ?_, ?_⟩
  · intro fuel root
    unfold bfsReturnPath
    rw [bfsAux_cb_error cb hcb]
  · intro fuel root
    unfold dfsReturnPath
    rw [dfsAux_cb_error cb hcb]
  · intro innerFuel outerFuel root
    unfold idsReturnPath
    rw [idsOuter_cb_error cb hcb]
  · intro fuel root
    unfold ucsReturnPath
    rw [ucsAux_cb_error cb hcb]
  · intro h fuel root
    unfold greedyReturnPath
    cases h root with
    | error msg => rfl
    | ok h0 => simp only [greedyAux_cb_error h cb hcb]
  · intro h fuel root
    unfold astarReturnPath
    rw [astarAux_cb_error h cb hcb]

theorem c10_raising_callback_swallowed_witness :
    (∀ e, shouldStop (some fun _ => Except.error "boom") e = false) ∧
    (∀ fuel root,
      bfsReturnPath (some fun _ => Except.error "boom") fuel root =
        bfsReturnPath none fuel root) ∧
    (∀ fuel root,
      dfsReturnPath (some fun _ => Except.error "boom") fuel root =
        dfsReturnPath none fuel root) ∧
    (∀ innerFuel outerFuel root,
      idsReturnPath (some fun _ => Except.error "boom") innerFuel outerFuel root =
        idsReturnPath none innerFuel outerFuel root) ∧
    (∀ fuel root,
      ucsReturnPath (some fun _ => Except.error "boom") fuel root =
        ucsReturnPath none fuel root) ∧
    (∀ h fuel root,
      greedyReturnPath h (some fun _ => Except.error "boom") fuel root =
        greedyReturnPath h none fuel root) ∧
    (∀ h fuel root,
      astarReturnPath h (some fun _ => Except.error "boom") fuel root =
        astarReturnPath h none fuel root) :=
  c10_raising_callback_swallowed (fun _ => Except.error "boom")
    (fun _ => ⟨"boom", rfl⟩)

/-! ## C5 — cancellation is observed within one polling interval -/

theorem shouldStop_fires (cb : StopCb)
    (hcb : ∀ k, 0 < k → k % CHECK_EVERY = 0 → cb k = Except.ok true) (e : Nat)
    (h0 : 0 < e) (hm : e % CHECK_EVERY = 0) : shouldStop (some cb) e = true := by
  simp only [shouldStop, hm, hcb e h0 hm, if_true]

theorem check_tick (e f : Nat) (hle : CHECK_EVERY - e % CHECK_EVERY ≤ f + 1)
    (hne : ¬(e + 1) % CHECK_EVERY = 0) :
    CHECK_EVERY - (e + 1) % CHECK_EVERY ≤ f := by
  have h : CHECK_EVERY = 2048 := rfl
  rw [h] at hle hne ⊢
  omega

theorem bfsAux_halts (cb : StopCb)
    (hcb : ∀ k, 0 < k → k % CHECK_EVERY = 0 → cb k = Except.ok true) :
    ∀ fuel q v e, CHECK_EVERY - e % CHECK_EVERY ≤ fuel →
      ∃ r, (bfsAux (some cb) fuel q v e).1 = some r ∧
        (r = [] ∨ ∃ s : State, s.reachedGoal = true ∧ r = s.move) := by
  intro fuel
  induction fuel with
  | zero =>
      intro q v e hle
      have h : CHECK_EVERY = 2048 := rfl
      rw [h] at hle
      omega
  | succ f ih =>
      intro q v e hle
      cases q with
      | nil => exact ⟨[], rfl, Or.inl rfl⟩
      | cons curr rest =>
          by_cases hg : curr.reachedGoal = true
          · exact ⟨curr.move, by simp [bfsAux, hg], Or.inr ⟨curr, hg, rfl⟩⟩
          · by_cases hm : (e + 1) % CHECK_EVERY = 0
            · refine ⟨[], ?_, Or.inl rfl⟩
              simp [bfsAux, hg, shouldStop_fires cb hcb (e + 1) (Nat.succ_pos e) hm]
            · obtain ⟨r, hr, hor⟩ := ih
                ((curr.getNeighbors.foldl bfsStep (rest, v)).1)
                ((curr.getNeighbors.foldl bfsStep (rest, v)).2) (e + 1)
                (check_tick e f hle hm)
              refine ⟨r, ?_, hor⟩
              have hs : shouldStop (some cb) (e + 1) = false := by
                simp only [shouldStop, hm, if_false]
              simp only [bfsAux, hg, Bool.false_eq_true, if_false, hs]
              exact hr

theorem dfsAux_halts (cb : StopCb)
    (hcb : ∀ k, 0 < k → k % CHECK_EVERY = 0 → cb k = Except.ok true) :
    ∀ fuel st v e, CHECK_EVERY - e % CHECK_EVERY ≤ fuel →
      ∃ r, dfsAux (some cb) fuel st v e = some r ∧
        (r = [] ∨ ∃ s : State, s.reachedGoal = true ∧ r = s.move) := by
  intro fuel
  induction fuel with
  | zero =>
      intro st v e hle
      have h : CHECK_EVERY = 2048 := rfl
      rw [h] at hle
      omega
  | succ f ih =>
      intro st v e hle
      cases st with
      | nil => exact ⟨[], rfl, Or.inl rfl⟩
      | cons curr rest =>
          by_cases hg : curr.reachedGoal = true
          · exact ⟨curr.move, by simp [dfsAux, hg], Or.inr ⟨curr, hg, rfl⟩⟩
          · by_cases hm : (e + 1) % CHECK_EVERY = 0
            · refine ⟨[], ?_, Or.inl rfl⟩
              simp [dfsAux, hg, shouldStop_fires cb hcb (e + 1) (Nat.succ_pos e) hm]
            · obtain ⟨r, hr, hor⟩ := ih
                ((curr.getNeighbors.foldl dfsStep (rest, v)).1)
                ((curr.getNeighbors.foldl dfsStep (rest, v)).2) (e + 1)
                (check_tick e f hle hm)
              refine ⟨r, ?_, hor⟩
              have hs : shouldStop (some cb) (e + 1) = false := by
                simp only [shouldStop, hm, if_false]
              simp only [dfsAux, hg, Bool.false_eq_true, if_false, hs]
              exact hr

theorem idsPass_halts (cb : StopCb)
    (hcb : ∀ k, 0 < k → k % CHECK_EVERY = 0 → cb k = Except.ok true)
    (limit : Nat) :
    ∀ fuel st v e, CHECK_EVERY - e % CHECK_EVERY ≤ fuel →
      ∃ o, idsPass (some cb) limit fuel st v e = some o ∧
        (o = .stopped ∨ (∃ s : State, s.reachedGoal = true ∧ o = .found s.move) ∨
          o = .exhausted) := by
  intro fuel
  induction fuel with
  | zero =>
      intro st v e hle
      have h : CHECK_EVERY = 2048 := rfl
      rw [h] at hle
      omega
  | succ f ih =>
      intro st v e hle
      cases st with
      | nil => exact ⟨.exhausted, rfl, Or.inr (Or.inr rfl)⟩
      | cons curr rest =>
          by_cases hg : curr.reachedGoal = true
          · exact ⟨.found curr.move, by simp [idsPass, hg],
              Or.inr (Or.inl ⟨curr, hg, rfl⟩)⟩
          · by_cases hm : (e + 1) % CHECK_EVERY = 0
            · refine ⟨.stopped, ?_, Or.inl rfl⟩
              simp [idsPass, hg, shouldStop_fires cb hcb (e + 1) (Nat.succ_pos e) hm]
            · obtain ⟨o, ho, hor⟩ := ih
                ((curr.getNeighbors.foldl (idsStep limit) (rest, v)).1)
                ((curr.getNeighbors.foldl (idsStep limit) (rest, v)).2) (e + 1)
                (check_tick e f hle hm)
              refine ⟨o, ?_, hor⟩
              have hs : shouldStop (some cb) (e + 1) = false := by
                simp only [shouldStop, hm, if_false]
              simp only [idsPass, hg, Bool.false_eq_true, if_false, hs]
              exact ho

/-- A pass that observes the cancel signal makes the whole iterative
deepening return the empty sequence. -/
theorem idsOuter_stopped (stop : Option StopCb) (root : State)
    (innerFuel depth_step max_limit ofl limit : Nat)
    (hlim : limit ≤ max_limit)
    (hstop : idsPass stop limit innerFuel [root] [cfg root] 0 = some .stopped) :
    idsOuter stop root innerFuel depth_step max_limit (ofl + 1) limit = some [] := by
  simp [idsOuter, hlim, hstop]

theorem ucsAux_halts (cb : StopCb)
    (hcb : ∀ k, 0 < k → k % CHECK_EVERY = 0 → cb k = Except.ok true) :
    ∀ fuel pq bg counter e, CHECK_EVERY - e % CHECK_EVERY ≤ fuel →
      ∃ r, ucsAux (some cb) fuel pq bg counter e = some r ∧
        (r = [] ∨ ∃ s : State, s.reachedGoal = true ∧ r = s.move) := by
  intro fuel
  induction fuel with
  | zero =>
      intro pq bg counter e hle
      have h : CHECK_EVERY = 2048 := rfl
      rw [h] at hle
      omega
  | succ f ih =>
      intro pq bg counter e hle
      match hpop : popMin pq with
      | none => exact ⟨[], by simp [ucsAux, hpop], Or.inl rfl⟩
      | some (en, pq') =>
          by_cases hg : en.2.2.reachedGoal = true
          · exact ⟨en.2.2.move, by simp [ucsAux, hpop, hg],
              Or.inr ⟨en.2.2, hg, rfl⟩⟩
          · by_cases hm : (e + 1) % CHECK_EVERY = 0
            · refine ⟨[], ?_, Or.inl rfl⟩
              simp [ucsAux, hpop, hg,
                shouldStop_fires cb hcb (e + 1) (Nat.succ_pos e) hm]
            · obtain ⟨r, hr, hor⟩ := ih
                ((en.2.2.getNeighbors.foldl ucsStep (pq', bg, counter)).1)
                ((en.2.2.getNeighbors.foldl ucsStep (pq', bg, counter)).2.1)
                ((en.2.2.getNeighbors.foldl ucsStep (pq', bg, counter)).2.2) (e + 1)
                (check_tick e f hle hm)
              refine ⟨r, ?_, hor⟩
              have hs : shouldStop (some cb) (e + 1) = false := by
                simp only [shouldStop, hm, if_false]
              simp only [ucsAux, hpop, hg, Bool.false_eq_true, if_false, hs]
              exact hr

theorem greedyAux_halts (h : State → Except String ℝ) (cb : StopCb)
    (hcb : ∀ k, 0 < k → k % CHECK_EVERY = 0 → cb k = Except.ok true) :
    ∀ fuel pq v counter e, CHECK_EVERY - e % CHECK_EVERY ≤ fuel →
      ∃ r, greedyAux h (some cb) fuel pq v counter e = some r ∧
        (r = .ok [] ∨ (∃ s : State, s.reachedGoal = true ∧ r = .ok s.move) ∨
          ∃ msg, r = .error msg) := by
  intro fuel
  induction fuel with
  | zero =>
      intro pq v counter e hle
      have hc : CHECK_EVERY = 2048 := rfl
      rw [hc] at hle
      omega
  | succ f ih =>
      intro pq v counter e hle
      match hpop : popMin pq with
      | none => exact ⟨.ok [], by simp [greedyAux, hpop], Or.inl rfl⟩
      | some (en, pq') =>
          by_cases hg : en.2.2.reachedGoal = true
          · exact ⟨.ok en.2.2.move, by simp [greedyAux, hpop, hg],
              Or.inr (Or.inl ⟨en.2.2, hg, rfl⟩)⟩
          · match hfold : greedyFold h en.2.2.getNeighbors (pq', v, counter) with
            | .error msg =>
                exact ⟨.error msg, by simp [greedyAux, hpop, hg, hfold],
                  Or.inr (Or.inr ⟨msg, rfl⟩)⟩
            | .ok acc =>
                by_cases hm : (e + 1) % CHECK_EVERY = 0
                · refine ⟨.ok [], ?_, Or.inl rfl⟩
                  simp [greedyAux, hpop, hg, hfold,
                    shouldStop_fires cb hcb (e + 1) (Nat.succ_pos e) hm]
                · obtain ⟨r, hr, hor⟩ := ih acc.1 acc.2.1 acc.2.2 (e + 1)
                    (check_tick e f hle hm)
                  refine ⟨r, ?_, hor⟩
                  have hs : shouldStop (some cb) (e + 1) = false := by
                    simp only [shouldStop, hm, if_false]
                  simp only [greedyAux, hpop, hg, hfold, Bool.false_eq_true,
                    if_false, hs]
                  exact hr

theorem astarAux_halts (h : State → Except String ℝ) (cb : StopCb)
    (hcb : ∀ k, 0 < k → k % CHECK_EVERY = 0 → cb k = Except.ok true) :
    ∀ fuel pq bg counter e, CHECK_EVERY - e % CHECK_EVERY ≤ fuel →
      ∃ r, astarAux h (some cb) fuel pq bg counter e = some r ∧
        (r = .ok [] ∨ (∃ s : State, s.reachedGoal = true ∧ r = .ok s.move) ∨
          ∃ msg, r = .error msg) := by
  intro fuel
  induction fuel with
  | zero =>
      intro pq bg counter e hle
      have hc : CHECK_EVERY = 2048 := rfl
      rw [hc] at hle
      omega
  | succ f ih =>
      intro pq bg counter e hle
      match hpop : popMin pq with
      | none => exact ⟨.ok [], by simp [astarAux, hpop], Or.inl rfl⟩
      | some (en, pq') =>
          by_cases hg : en.2.2.reachedGoal = true
          · exact ⟨.ok en.2.2.move, by simp [astarAux, hpop, hg],
              Or.inr (Or.inl ⟨en.2.2, hg, rfl⟩)⟩
          · match hfold : astarFold h en.2.2.move.length en.2.2.getNeighbors
                (pq', bg, counter) with
            | .error msg =>
                exact ⟨.error msg, by simp [astarAux, hpop, hg, hfold],
                  Or.inr (Or.inr ⟨msg, rfl⟩)⟩
            | .ok acc =>
                by_cases hm : (e + 1) % CHECK_EVERY = 0
                · refine ⟨.ok [], ?_, Or.inl rfl⟩
                  simp [astarAux, hpop, hg, hfold,
                    shouldStop_fires cb hcb (e + 1) (Nat.succ_pos e) hm]
                · obtain ⟨r, hr, hor⟩ := ih acc.1 acc.2.1 acc.2.2 (e + 1)
                    (check_tick e f hle hm)
                  refine ⟨r, ?_, hor⟩
                  have hs : shouldStop (some cb) (e + 1) = false := by
                    simp only [shouldStop, hm, if_false]
                  simp only [astarAux, hpop, hg, hfold, Bool.false_eq_true,
                    if_false, hs]
                  exact hr

/-- C5 (counterexample).  The wrapper's reason string for a cancelled
outcome is `"canceled"`, not `"cancelled"`. -/
theorem c5_reason_spelling_cex :
    (workerResult (Except.ok []) true 0).reason ≠ "cancelled" ∧
      (workerResult (Except.ok []) true 0).reason = "canceled" := by
  constructor <;> decide

/-- C5 (amended).  For every strategy, a cancel predicate returning true
whenever it is polled is observed at the first poll: within one polling
interval (`CHECK_EVERY` loop iterations, one expansion each; counted per
deepening pass for iterative deepening) the search returns, and returns
the empty sequence unless it had already found a goal (or, for the
heuristic strategies, the heuristic raised).  A pass of iterative
deepening that observes the signal makes the whole search return the
empty sequence.  The wrapper tags the cancelled empty outcome with reason
`"canceled"`, distinct from the `"no-solution"` reason of an exhausted
frontier. -/
theorem c5_cancellation (cb : StopCb)
    (hcb : ∀ k, 0 < k → k % CHECK_EVERY = 0 → cb k = Except.ok true) :
    (∀ q v, ∃ r, (bfsAux (some cb) CHECK_EVERY q v 0).1 = some r ∧
      (r = [] ∨ ∃ s : State, s.reachedGoal = true ∧ r = s.move)) ∧
    (∀ st v, ∃ r, dfsAux (some cb) CHECK_EVERY st v 0 = some r ∧
      (r = [] ∨ ∃ s : State, s.reachedGoal = true ∧ r = s.move)) ∧
    (∀ limit st v, ∃ o, idsPass (some cb) limit CHECK_EVERY st v 0 = some o ∧
      (o = .stopped ∨ (∃ s : State, s.reachedGoal = true ∧ o = .found s.move) ∨
        o = .exhausted)) ∧
    (∀ root innerFuel depth_step max_limit ofl limit, limit ≤ max_limit →
      idsPass (some cb) limit innerFuel [root] [cfg root] 0 = some .stopped →
      idsOuter (some cb) root innerFuel depth_step max_limit (ofl + 1) limit =
        some []) ∧
    (∀ pq bg counter, ∃ r, ucsAux (some cb) CHECK_EVERY pq bg counter 0 = some r ∧
      (r = [] ∨ ∃ s : State, s.reachedGoal = true ∧ r = s.move)) ∧
    (∀ h pq v counter, ∃ r,
      greedyAux h (some cb) CHECK_EVERY pq v counter 0 = some r ∧
      (r = .ok [] ∨ (∃ s : State, s.reachedGoal = true ∧ r = .ok s.move) ∨
        ∃ msg, r = .error msg)) ∧
    (∀ h pq bg counter, ∃ r,
      astarAux h (some cb) CHECK_EVERY pq bg counter 0 = some r ∧
      (r = .ok [] ∨ (∃ s : State, s.reachedGoal = true ∧ r = .ok s.move) ∨
        ∃ msg, r = .error msg)) ∧
    (∀ n, (workerResult (Except.ok []) true n).reason = "canceled") ∧
    (∀ n, (workerResult (Except.ok []) false n).reason = "no-solution") ∧
    ("canceled" : String) ≠ "no-solution" := by
  refine ⟨fun q v => bfsAux_halts cb hcb CHECK_EVERY q v 0 (by omega),
    fun st v => dfsAux_halts cb hcb CHECK_EVERY st v 0 (by omega),
    fun limit st v => idsPass_halts cb hcb limit CHECK_EVERY st v 0 (by omega),
    fun root innerFuel depth_step max_limit ofl limit hlim hstop =>
      idsOuter_stopped (some cb) root innerFuel depth_step max_limit ofl limit
        hlim hstop,
    fun pq bg counter => ucsAux_halts cb hcb CHECK_EVERY pq bg counter 0 (by omega),
    fun h pq v counter =>
      greedyAux_halts h cb hcb CHECK_EVERY pq v counter 0 (by omega),
    fun h pq bg counter =>
      astarAux_halts h cb hcb CHECK_EVERY pq bg counter 0 (by omega),
    fun n => rfl, fun n => rfl, by decide⟩

theorem c5_cancellation_witness :
    ∃ cb : StopCb, (∀ k, 0 < k → k % CHECK_EVERY = 0 → cb k = Except.ok true) ∧
      ((∀ q v, ∃ r, (bfsAux (some cb) CHECK_EVERY q v 0).1 = some r ∧
        (r = [] ∨ ∃ s : State, s.reachedGoal = true ∧ r = s.move)) ∧
      (∀ n, (workerResult (Except.ok []) true n).reason = "canceled")) :=
  ⟨fun _ => Except.ok true, fun _ _ _ => rfl,
    (c5_cancellation (fun _ => Except.ok true) (fun _ _ _ => rfl)).1,
    (c5_cancellation (fun _ => Except.ok true) (fun _ _ _ => rfl)).2.2.2.2.2.2.2.1⟩

/-! ## C2 — breadth-first returns a shortest solution

The proof works directly on the embedded `bfsAux`: a two-block queue
invariant (all entries at depth `D` followed by all entries at depth
`D + 1`), every visited key at its true distance, processed keys closed
under successors and never goals. -/

/-- `t` is reachable from `s` in exactly `n` successor steps. -/
inductive ReachN (s : State) : Nat → State → Prop
  | refl : ReachN s 0 s
  | tail {n : Nat} {t u : State} : ReachN s n t → u ∈ t.getNeighbors →
      ReachN s (n + 1) u

/-- The puzzle rooted at `s` has a solution of length `n`. -/
def SolvedIn (s : State) (n : Nat) : Prop :=
  ∃ t, ReachN s n t ∧ t.reachedGoal = true

/-- Depth of `s` below `root`, measured by the move history. -/
def depth (root s : State) : Nat := s.move.length - root.move.length

theorem neighbor_statics {s t : State} (ht : t ∈ s.getNeighbors) :
    statics t = statics s := by
  obtain ⟨ax, ay, bx2, by2, m, h⟩ := mem_getNeighbors ht
  obtain ⟨h1, h2, h3, h4, h5, -, -⟩ := tryMove_eq_some h
  unfold statics
  rw [h1, h2, h3, h4, h5]

theorem neighbor_move_length {s t : State} (ht : t ∈ s.getNeighbors) :
    t.move.length = s.move.length + 1 := by
  obtain ⟨ax, ay, bx2, by2, m, h⟩ := mem_getNeighbors ht
  obtain ⟨-, -, -, -, -, hm, -⟩ := tryMove_eq_some h
  simp [hm]

theorem reach_statics {root t : State} {n : Nat} (h : ReachN root n t) :
    statics t = statics root := by
  induction h with
  | refl => rfl
  | tail _ hmem ih => rw [neighbor_statics hmem, ih]

theorem reach_move_length {root t : State} {n : Nat} (h : ReachN root n t) :
    t.move.length = root.move.length + n := by
  induction h with
  | refl => rfl
  | tail _ hmem ih => rw [neighbor_move_length hmem, ih]; omega

theorem reach_depth {root t : State} {n : Nat} (h : ReachN root n t) :
    depth root t = n := by
  unfold depth
  rw [reach_move_length h]
  omega

theorem reachedGoal_congr {s t : State} (hcfg : cfg s = cfg t)
    (hst : statics s = statics t) : s.reachedGoal = t.reachedGoal := by
  have hbx : s.boxes = t.boxes := congrArg Prod.snd hcfg
  have hsg : s.storages = t.storages := congrArg (fun x => x.2.1) hst
  unfold State.reachedGoal
  rw [hbx, hsg]

theorem tryMove_map_cfg {s t : State} (hcfg : cfg s = cfg t)
    (hst : statics s = statics t) (ax ay bx2 by2 : Int) (m : Char) :
    (s.tryMove ax ay bx2 by2 m).map cfg = (t.tryMove ax ay bx2 by2 m).map cfg := by
  have hpl : s.player = t.player := congrArg Prod.fst hcfg
  have hbx : s.boxes = t.boxes := congrArg Prod.snd hcfg
  have hw : s.walls = t.walls := congrArg (fun x => x.1) hst
  have hrows : s.rows = t.rows := congrArg (fun x => x.2.2.1) hst
  have hcols : s.cols = t.cols := congrArg (fun x => x.2.2.2.1) hst
  have hdl : s.deadlocks = t.deadlocks := congrArg (fun x => x.2.2.2.2) hst
  have hin : ∀ x y, s.inbound x y = t.inbound x y := by
    intro x y
    unfold State.inbound
    rw [hrows, hcols]
  unfold State.tryMove
  simp only [hin, hw, hbx, hdl]
  split_ifs <;> simp [cfg, hpl, hbx]

theorem getNeighbors_map_cfg {s t : State} (hcfg : cfg s = cfg t)
    (hst : statics s = statics t) :
    s.getNeighbors.map cfg = t.getNeighbors.map cfg := by
  have hpl : s.player = t.player := congrArg Prod.fst hcfg
  have htl : ∀ o o' : Option State, o.map cfg = o'.map cfg →
      o.toList.map cfg = o'.toList.map cfg := by
    intro o o' h
    cases o <;> cases o' <;> simp_all
  unfold State.getNeighbors
  rw [hpl]
  simp only [List.map_append]
  rw [htl _ _ (tryMove_map_cfg hcfg hst _ _ _ _ _),
    htl _ _ (tryMove_map_cfg hcfg hst _ _ _ _ _),
    htl _ _ (tryMove_map_cfg hcfg hst _ _ _ _ _),
    htl _ _ (tryMove_map_cfg hcfg hst _ _ _ _ _)]

/-- Bounds recorded by a successful `_try_move`: the new player cell is in
bounds, and any new box cell is in bounds. -/
theorem tryMove_eq_some_bounds {s t : State} {ax ay bx2 by2 : Int} {m : Char}
    (h : s.tryMove ax ay bx2 by2 m = some t) :
    inboundP s t.player ∧
      (t.boxes = s.boxes ∨ ∃ b, inboundP s b ∧ t.boxes ⊆ insert b s.boxes) := by
  simp only [State.tryMove] at h
  split_ifs at h with h1 h2 h3 h4 h5 h6
  · cases h
    refine ⟨by simpa [State.inbound, inboundP] using h1, Or.inr ?_⟩
    refine ⟨⟨bx2, by2⟩, by simpa [State.inbound, inboundP] using h4, ?_⟩
    exact Finset.insert_subset_insert _ (Finset.erase_subset _ _)
  · cases h
    exact ⟨by simpa [State.inbound, inboundP] using h1, Or.inl rfl⟩

/-- Full description of the BFS enqueue fold: the queue grows by a block
`new` of pairwise-fresh states, visited grows by exactly their keys, and
afterwards every neighbor's key is visited. -/
theorem bfsFold_spec (es : List State) :
    ∀ rest v, ∃ new : List State,
      (es.foldl bfsStep (rest, v)).1 = rest ++ new ∧
      (es.foldl bfsStep (rest, v)).2 = v ++ new.map cfg ∧
      (new.map cfg).Nodup ∧
      (∀ k ∈ new.map cfg, k ∉ v) ∧
      (∀ t ∈ new, t ∈ es) ∧
      (∀ e ∈ es, cfg e ∈ (es.foldl bfsStep (rest, v)).2) := by
  induction es with
  | nil =>
      intro rest v
      exact ⟨[], by simp, by simp, by simp, by simp, by simp, by simp⟩
  | cons e es ih =>
      intro rest v
      by_cases hv : cfg e ∈ v
      · have hstep : bfsStep (rest, v) e = (rest, v) := by simp [bfsStep, hv]
        obtain ⟨new, h1, h2, h3, h4, h5, h6⟩ := ih rest v
        rw [List.foldl_cons, hstep]
        refine ⟨new, h1, h2, h3, h4,
          fun t ht => List.mem_cons_of_mem _ (h5 t ht), ?_⟩
        intro e' he'
        rcases List.mem_cons.mp he' with rfl | he'
        · rw [h2]
          exact List.mem_append_left _ hv
        · exact h6 e' he'
      · have hstep : bfsStep (rest, v) e = (rest ++ [e], v ++ [cfg e]) := by
          simp [bfsStep, hv]
        obtain ⟨new, h1, h2, h3, h4, h5, h6⟩ := ih (rest ++ [e]) (v ++ [cfg e])
        rw [List.foldl_cons, hstep]
        refine ⟨e :: new, ?_, ?_, ?_, ?_, ?_, ?_⟩
        · rw [h1, List.append_assoc]
          rfl
        · rw [h2, List.append_assoc]
          rfl
        · refine List.Nodup.cons ?_ h3
          intro hc
          exact h4 _ hc (List.mem_append_right _ (List.mem_singleton.mpr rfl))
        · intro k hk
          rcases List.mem_cons.mp hk with rfl | hk
          · exact hv
          · intro hkv
            exact h4 k hk (List.mem_append_left _ hkv)
        · intro t ht
          rcases List.mem_cons.mp ht with rfl | ht
          · exact List.mem_cons_self _ _
          · exact List.mem_cons_of_mem _ (h5 t ht)
        · intro e' he'
          rcases List.mem_cons.mp he' with rfl | he'
          · rw [h2]
            exact List.mem_append_left _
              (List.mem_append_right _ (List.mem_singleton.mpr rfl))
          · exact h6 e' he'

/-- The in-bounds cells of the root's grid. -/
def grid (root : State) : Finset Point :=
  (Finset.Icc (1 : Int) root.rows ×ˢ Finset.Icc (1 : Int) root.cols).image
    fun ij => (⟨ij.1, ij.2⟩ : Point)

/-- A finite universe containing every configuration reachable from the
root: the player on the grid (or at the root's own cell) and the boxes
among the root's boxes and grid cells. -/
def confUniv (root : State) : Finset Config :=
  (insert root.player (grid root)) ×ˢ (root.boxes ∪ grid root).powerset

theorem root_mem_confUniv (root : State) : cfg root ∈ confUniv root := by
  unfold confUniv cfg
  rw [Finset.mem_product]
  exact ⟨Finset.mem_insert_self _ _,
    Finset.mem_powerset.mpr Finset.subset_union_left⟩

theorem inbound_mem_grid {root s : State} {p : Point}
    (hst : statics s = statics root) (hin : inboundP s p) : p ∈ grid root := by
  have hrows : s.rows = root.rows := congrArg (fun x => x.2.2.1) hst
  have hcols : s.cols = root.cols := congrArg (fun x => x.2.2.2.1) hst
  obtain ⟨hx1, hx2, hy1, hy2⟩ := hin
  unfold grid
  refine Finset.mem_image.mpr ⟨(p.x, p.y), ?_, rfl⟩
  rw [Finset.mem_product]
  constructor <;> rw [Finset.mem_Icc] <;> omega

theorem confUniv_closed {root s t : State} (hst : statics s = statics root)
    (hs : cfg s ∈ confUniv root) (ht : t ∈ s.getNeighbors) :
    cfg t ∈ confUniv root := by
  obtain ⟨ax, ay, bx2, by2, m, h⟩ := mem_getNeighbors ht
  obtain ⟨hpl, hbx⟩ := tryMove_eq_some_bounds h
  unfold confUniv cfg at hs ⊢
  rw [Finset.mem_product] at hs ⊢
  obtain ⟨-, hboxes⟩ := hs
  have hsub : s.boxes ⊆ root.boxes ∪ grid root := Finset.mem_powerset.mp hboxes
  refine ⟨Finset.mem_insert_of_mem (inbound_mem_grid hst hpl), ?_⟩
  rw [Finset.mem_powerset]
  rcases hbx with hbx | ⟨b, hbin, hbx⟩
  · rw [hbx]
    exact hsub
  · refine hbx.trans ?_
    rw [Finset.insert_subset_iff]
    exact ⟨Finset.mem_union_right _ (inbound_mem_grid hst hbin), hsub⟩

theorem reach_confUniv {root t : State} {n : Nat} (h : ReachN root n t) :
    cfg t ∈ confUniv root := by
  induction h with
  | refl => exact root_mem_confUniv root
  | tail hr hmem ih => exact confUniv_closed (reach_statics hr) ih hmem

/-- A duplicate-free list of configurations of the universe is no longer
than the universe. -/
theorem nodup_univ_length_le {root : State} {v : List Config}
    (hnd : v.Nodup) (hu : ∀ c ∈ v, c ∈ confUniv root) :
    v.length ≤ (confUniv root).card := by
  calc v.length = v.toFinset.card := (List.toFinset_card_of_nodup hnd).symm
    _ ≤ (confUniv root).card :=
        Finset.card_le_card fun c hc => hu c (List.mem_toFinset.mp hc)

/-- The BFS loop invariant.  The queue is `q1 ++ q2` with the `q1` block
at depth `D` and the `q2` block at depth `D + 1`; `v` is the visited key
list. -/
structure BfsInv (root : State) (D : Nat) (q1 q2 : List State)
    (v : List Config) : Prop where
  statics_q : ∀ s ∈ q1 ++ q2, statics s = statics root
  keys_v : ∀ s ∈ q1 ++ q2, cfg s ∈ v
  v_nodup : v.Nodup
  qkeys_nodup : ((q1 ++ q2).map cfg).Nodup
  root_v : cfg root ∈ v
  v_univ : ∀ c ∈ v, c ∈ confUniv root
  reach_q : ∀ s ∈ q1 ++ q2, ReachN root (depth root s) s
  len_q1 : ∀ s ∈ q1, s.move.length = root.move.length + D
  len_q2 : ∀ s ∈ q2, s.move.length = root.move.length + (D + 1)
  min_q : ∀ s ∈ q1 ++ q2, ∀ m t, ReachN root m t → cfg t = cfg s →
    depth root s ≤ m
  vis_complete : ∀ m t, ReachN root m t → m ≤ D → cfg t ∈ v
  closed : ∀ c ∈ v, c ∉ (q1 ++ q2).map cfg →
    ∀ s, statics s = statics root → cfg s = c →
      ∀ t ∈ s.getNeighbors, cfg t ∈ v
  proc_nongoal : ∀ c ∈ v, c ∉ (q1 ++ q2).map cfg →
    ∀ s, statics s = statics root → cfg s = c → s.reachedGoal = false

theorem depth_q1 {root : State} {D : Nat} {q1 q2 : List State} {v : List Config}
    (inv : BfsInv root D q1 q2 v) {s : State} (hs : s ∈ q1) :
    depth root s = D := by
  have := inv.len_q1 s hs
  unfold depth
  omega

theorem depth_q2 {root : State} {D : Nat} {q1 q2 : List State} {v : List Config}
    (inv : BfsInv root D q1 q2 v) {s : State} (hs : s ∈ q2) :
    depth root s = D + 1 := by
  have := inv.len_q2 s hs
  unfold depth
  omega

theorem bfsInv_init (root : State) : BfsInv root 0 [root] [] [cfg root] := by
  have hzero : ∀ t : State, ReachN root 0 t → t = root := by
    intro t h
    cases h
    rfl
  have hdr : depth root root = 0 := by unfold depth; omega
  refine ⟨?_, ?_, ?_, ?_, ?_, ?_, ?_, ?_, ?_, ?_, ?_, ?_, ?_⟩
  · intro s hs
    have hs' : s = root := by simpa using hs
    subst hs'
    rfl
  · intro s hs
    have hs' : s = root := by simpa using hs
    subst hs'
    exact List.mem_singleton.mpr rfl
  · exact List.nodup_singleton _
  · simp
  · exact List.mem_singleton.mpr rfl
  · intro c hc
    have hc' : c = cfg root := List.mem_singleton.mp hc
    subst hc'
    exact root_mem_confUniv root
  · intro s hs
    have hs' : s = root := by simpa using hs
    subst hs'
    rw [hdr]
    exact ReachN.refl
  · intro s hs
    have hs' : s = root := List.mem_singleton.mp hs
    subst hs'
    omega
  · intro s hs
    exact absurd hs (List.not_mem_nil s)
  · intro s hs m t hr hc
    have hs' : s = root := by simpa using hs
    subst hs'
    rw [hdr]
    omega
  · intro m t hr hm
    rw [Nat.le_zero.mp hm] at hr
    rw [hzero t hr]
    exact List.mem_singleton.mpr rfl
  · intro c hc hnq
    have hc' : c = cfg root := List.mem_singleton.mp hc
    subst hc'
    exact absurd (by simp) hnq
  · intro c hc hnq
    have hc' : c = cfg root := List.mem_singleton.mp hc
    subst hc'
    exact absurd (by simp) hnq

/-- When the depth-`D` block is exhausted the queue is a pure depth-`D+1`
block, and the invariant shifts to `D + 1`. -/
theorem bfsInv_shift {root : State} {D : Nat} {q2 : List State}
    {v : List Config} (inv : BfsInv root D [] q2 v) :
    BfsInv root (D + 1) q2 [] v := by
  have hmem : ∀ s : State, s ∈ q2 ++ [] ↔ s ∈ ([] : List State) ++ q2 := by
    intro s
    simp
  refine ⟨?_, ?_, inv.v_nodup, ?_, inv.root_v, inv.v_univ, ?_, ?_, ?_, ?_, ?_,
    ?_, ?_⟩
  · intro s hs
    exact inv.statics_q s ((hmem s).mp hs)
  · intro s hs
    exact inv.keys_v s ((hmem s).mp hs)
  · have := inv.qkeys_nodup
    simpa using this
  · intro s hs
    exact inv.reach_q s ((hmem s).mp hs)
  · intro s hs
    exact inv.len_q2 s hs
  · intro s hs
    exact absurd hs (List.not_mem_nil s)
  · intro s hs m t hr hc
    exact inv.min_q s ((hmem s).mp hs) m t hr hc
  · -- the crux: everything at distance `D + 1` is visited once the
    -- depth-`D` block is gone
    intro m t hr hm
    rcases Nat.lt_or_ge m (D + 1) with hlt | hge
    · exact inv.vis_complete m t hr (by omega)
    · have hmeq : m = D + 1 := by omega
      subst hmeq
      cases hr with
      | tail hr0 hmem0 =>
          rename_i t0
          have hc0 : cfg t0 ∈ v := inv.vis_complete D t0 hr0 (le_refl D)
          have hproc : cfg t0 ∉ (([] : List State) ++ q2).map cfg := by
            intro hin
            simp only [List.nil_append, List.mem_map] at hin
            obtain ⟨s, hs, hcs⟩ := hin
            have hle := inv.min_q s (by simpa using hs) D t0 hr0 hcs.symm
            have hd2 := depth_q2 inv hs
            omega
          exact inv.closed (cfg t0) hc0 hproc t0 (reach_statics hr0) rfl _ hmem0
  · intro c hc hnq
    refine inv.closed c hc ?_
    intro hin
    exact hnq (by simpa using hin)
  · intro c hc hnq
    refine inv.proc_nongoal c hc ?_
    intro hin
    exact hnq (by simpa using hin)

/-- Expanding a non-goal head of the depth-`D` block preserves the
invariant, the new states joining the depth-`D+1` block. -/
theorem bfsInv_step {root : State} {D : Nat} {curr : State} {q1 q2 : List State}
    {v : List Config} (inv : BfsInv root D (curr :: q1) q2 v)
    (hg : curr.reachedGoal = false) :
    ∃ new : List State,
      (curr.getNeighbors.foldl bfsStep (q1 ++ q2, v)).1 = (q1 ++ q2) ++ new ∧
      (curr.getNeighbors.foldl bfsStep (q1 ++ q2, v)).2 = v ++ new.map cfg ∧
      BfsInv root D q1 (q2 ++ new) (v ++ new.map cfg) := by
  have hcm : curr ∈ (curr :: q1) ++ q2 := by simp
  have hst_curr : statics curr = statics root := inv.statics_q curr hcm
  have hk_curr : cfg curr ∈ v := inv.keys_v curr hcm
  have hreach_curr : ReachN root (depth root curr) curr := inv.reach_q curr hcm
  have hlen_curr : curr.move.length = root.move.length + D :=
    inv.len_q1 curr (List.mem_cons_self _ _)
  have hdep_curr : depth root curr = D := by unfold depth; omega
  obtain ⟨new, h1, h2, h3, h4, h5, h6⟩ := bfsFold_spec curr.getNeighbors (q1 ++ q2) v
  have hreach_D : ReachN root D curr := hdep_curr ▸ hreach_curr
  have hnew_st : ∀ t ∈ new, statics t = statics root := fun t ht =>
    (neighbor_statics (h5 t ht)).trans hst_curr
  have hnew_len : ∀ t ∈ new, t.move.length = root.move.length + (D + 1) := by
    intro t ht
    have := neighbor_move_length (h5 t ht)
    omega
  have hnew_dep : ∀ t ∈ new, depth root t = D + 1 := by
    intro t ht
    have := hnew_len t ht
    unfold depth
    omega
  have hnew_reach : ∀ t ∈ new, ReachN root (depth root t) t := by
    intro t ht
    rw [hnew_dep t ht]
    exact ReachN.tail hreach_D (h5 t ht)
  have hnew_freshv : ∀ t ∈ new, cfg t ∉ v := fun t ht =>
    h4 (cfg t) (List.mem_map_of_mem cfg ht)
  have hnew_min : ∀ t ∈ new, ∀ m t', ReachN root m t' → cfg t' = cfg t →
      depth root t ≤ m := by
    intro t ht m t' hr hc
    rw [hnew_dep t ht]
    by_contra hlt
    push_neg at hlt
    have hv' : cfg t' ∈ v := inv.vis_complete m t' hr (by omega)
    rw [hc] at hv'
    exact hnew_freshv t ht hv'
  have hold : ∀ s : State, s ∈ q1 ++ (q2 ++ new) → s ∈ q1 ++ q2 ∨ s ∈ new := by
    intro s hs
    simp only [List.mem_append] at hs ⊢
    tauto
  have hsub : ∀ s : State, s ∈ q1 ++ q2 → s ∈ (curr :: q1) ++ q2 := by
    intro s hs
    simp only [List.mem_append, List.mem_cons] at hs ⊢
    tauto
  have holdkeys : ∀ c : Config, c ∈ (q1 ++ q2).map cfg →
      c ∈ (q1 ++ (q2 ++ new)).map cfg := by
    intro c hc
    simp only [List.map_append, List.mem_append] at hc ⊢
    tauto
  have hnewkeys : ∀ c : Config, c ∈ new.map cfg →
      c ∈ (q1 ++ (q2 ++ new)).map cfg := by
    intro c hc
    simp only [List.map_append, List.mem_append] at hc ⊢
    tauto
  refine ⟨new, h1, h2, ?_, ?_, ?_, ?_, ?_, ?_, ?_, ?_, ?_, ?_, ?_, ?_, ?_⟩
  · intro s hs
    rcases hold s hs with hs' | hs'
    · exact inv.statics_q s (hsub s hs')
    · exact hnew_st s hs'
  · intro s hs
    rcases hold s hs with hs' | hs'
    · exact List.mem_append_left _ (inv.keys_v s (hsub s hs'))
    · exact List.mem_append_right _ (List.mem_map_of_mem cfg hs')
  · refine List.Nodup.append inv.v_nodup h3 ?_
    intro a ha hc
    exact h4 a hc ha
  · have hrearr : (q1 ++ (q2 ++ new)).map cfg =
        (q1 ++ q2).map cfg ++ new.map cfg := by
      simp
    rw [hrearr]
    have hoqn : ((q1 ++ q2).map cfg).Nodup := by
      have := inv.qkeys_nodup
      simp only [List.cons_append, List.map_cons] at this
      exact this.of_cons
    refine List.Nodup.append hoqn h3 ?_
    intro a ha hc
    obtain ⟨s, hs, hcs⟩ := List.mem_map.mp ha
    have hav : a ∈ v := hcs ▸ inv.keys_v s (hsub s hs)
    exact h4 a hc hav
  · exact List.mem_append_left _ inv.root_v
  · intro c hc
    rcases List.mem_append.mp hc with hc' | hc'
    · exact inv.v_univ c hc'
    · obtain ⟨t, ht, hct⟩ := List.mem_map.mp hc'
      exact hct ▸ confUniv_closed hst_curr (inv.v_univ _ hk_curr) (h5 t ht)
  · intro s hs
    rcases hold s hs with hs' | hs'
    · exact inv.reach_q s (hsub s hs')
    · exact hnew_reach s hs'
  · intro s hs
    exact inv.len_q1 s (List.mem_cons_of_mem _ hs)
  · intro s hs
    rcases List.mem_append.mp hs with hs' | hs'
    · exact inv.len_q2 s hs'
    · exact hnew_len s hs'
  · intro s hs m t hr hc
    rcases hold s hs with hs' | hs'
    · exact inv.min_q s (hsub s hs') m t hr hc
    · exact hnew_min s hs' m t hr hc
  · intro m t hr hm
    exact List.mem_append_left _ (inv.vis_complete m t hr hm)
  · intro c hc hnq s hst hcs t ht
    rcases List.mem_append.mp hc with hcv | hcn
    · by_cases hq : c ∈ ((curr :: q1) ++ q2).map cfg
      · have hq' : c = cfg curr ∨ c ∈ (q1 ++ q2).map cfg := by
          simp only [List.cons_append, List.map_cons, List.mem_cons] at hq
          rcases hq with h | h
          · exact Or.inl h
          · exact Or.inr h
        rcases hq' with rfl | hq'
        · have hst' : statics s = statics curr := hst.trans hst_curr.symm
          have hmap := getNeighbors_map_cfg hcs hst'
          have hct : cfg t ∈ curr.getNeighbors.map cfg := by
            rw [← hmap]
            exact List.mem_map_of_mem cfg ht
          obtain ⟨e, he, hce⟩ := List.mem_map.mp hct
          have := h6 e he
          rw [h2] at this
          exact hce ▸ this
        · exact absurd (holdkeys c hq') hnq
      · exact List.mem_append_left _ (inv.closed c hcv hq s hst hcs t ht)
    · exact absurd (hnewkeys c hcn) hnq
  · intro c hc hnq s hst hcs
    rcases List.mem_append.mp hc with hcv | hcn
    · by_cases hq : c ∈ ((curr :: q1) ++ q2).map cfg
      · have hq' : c = cfg curr ∨ c ∈ (q1 ++ q2).map cfg := by
          simp only [List.cons_append, List.map_cons, List.mem_cons] at hq
          rcases hq with h | h
          · exact Or.inl h
          · exact Or.inr h
        rcases hq' with rfl | hq'
        · have hst' : statics s = statics curr := hst.trans hst_curr.symm
          rw [reachedGoal_congr hcs hst']
          exact hg
        · exact absurd (holdkeys c hq') hnq
      · exact inv.proc_nongoal c hcv hq s hst hcs
    · exact absurd (hnewkeys c hcn) hnq

/-- Dequeuing a goal at the front gives a deepest-minimal solution. -/
theorem bfsInv_goal {root : State} {D : Nat} {curr : State} {q1 q2 : List State}
    {v : List Config} (inv : BfsInv root D (curr :: q1) q2 v)
    (hg : curr.reachedGoal = true) :
    ReachN root (depth root curr) curr ∧
      ∀ m, SolvedIn root m → depth root curr ≤ m := by
  have hcm : curr ∈ (curr :: q1) ++ q2 := by simp
  refine ⟨inv.reach_q curr hcm, ?_⟩
  rintro m ⟨t, hr, hgt⟩
  by_contra hlt
  push_neg at hlt
  have hdep : depth root curr = D := depth_q1 inv (List.mem_cons_self _ _)
  have hv : cfg t ∈ v := inv.vis_complete m t hr (by omega)
  by_cases hq : cfg t ∈ ((curr :: q1) ++ q2).map cfg
  · obtain ⟨s, hs, hcs⟩ := List.mem_map.mp hq
    have hle := inv.min_q s hs m t hr hcs.symm
    rcases List.mem_append.mp hs with hs1 | hs2
    · have := inv.len_q1 s hs1
      unfold depth at hle
      omega
    · have := inv.len_q2 s hs2
      unfold depth at hle
      omega
  · have := inv.proc_nongoal (cfg t) hv hq t (reach_statics hr) rfl
    rw [hgt] at this
    exact Bool.noConfusion this

/-- An exhausted frontier is impossible while a solution exists. -/
theorem bfsInv_exhaust {root : State} {D : Nat} {v : List Config}
    (inv : BfsInv root D [] [] v) {m : Nat} (hm : SolvedIn root m) : False := by
  have hall : ∀ (n : Nat) (t : State), ReachN root n t → cfg t ∈ v := by
    intro n t h
    induction h with
    | refl => exact inv.root_v
    | tail hr hmem ih =>
        exact inv.closed _ ih (by simp) _ (reach_statics hr) rfl _ hmem
  obtain ⟨t, hr, hgt⟩ := hm
  have := inv.proc_nongoal (cfg t) (hall m t hr) (by simp) t (reach_statics hr) rfl
  rw [hgt] at this
  exact Bool.noConfusion this

/-- The BFS run from any invariant-satisfying loop state with enough fuel
dequeues a goal of minimal depth. -/
theorem bfs_main (root : State) (hsol : ∃ m, SolvedIn root m) :
    ∀ (fuel : Nat) (q : List State) (v : List Config) (e : Nat),
      (∃ D q1 q2, q = q1 ++ q2 ∧ BfsInv root D q1 q2 v) →
      q.length + 2 * ((confUniv root).card - v.length) < fuel →
      ∃ curr : State, (bfsAux none fuel q v e).1 = some curr.move ∧
        ReachN root (depth root curr) curr ∧ curr.reachedGoal = true ∧
        ∀ m, SolvedIn root m → depth root curr ≤ m := by
  intro fuel
  induction fuel with
  | zero =>
      intro q v e _ hmeas
      omega
  | succ f ih =>
      intro q v e hinv hmeas
      obtain ⟨D, q1, q2, hsplit, inv⟩ := hinv
      cases q with
      | nil =>
          obtain ⟨m, hm⟩ := hsol
          obtain ⟨hq1, hq2⟩ := List.append_eq_nil.mp hsplit.symm
          subst hq1
          subst hq2
          exact absurd hm (fun hm' => bfsInv_exhaust inv hm')
      | cons curr rest =>
          have hfront : ∃ D' q1' q2', rest = q1' ++ q2' ∧
              BfsInv root D' (curr :: q1') q2' v := by
            cases q1 with
            | nil =>
                have hq2 : q2 = curr :: rest := by simpa using hsplit.symm
                subst hq2
                exact ⟨D + 1, rest, [], by simp, bfsInv_shift inv⟩
            | cons c0 q1'' =>
                have hc0 : curr = c0 ∧ rest = q1'' ++ q2 := by
                  have := hsplit
                  simp only [List.cons_append, List.cons.injEq] at this
                  exact this
                obtain ⟨rfl, hr⟩ := hc0
                exact ⟨D, q1'', q2, hr, inv⟩
          obtain ⟨D', q1', q2', hrest, invf⟩ := hfront
          by_cases hg : curr.reachedGoal = true
          · obtain ⟨hreach, hopt⟩ := bfsInv_goal invf hg
            exact ⟨curr, by simp [bfsAux, hg], hreach, hg, hopt⟩
          · have hgf : curr.reachedGoal = false := by
              simpa using hg
            obtain ⟨new, h1, h2, inv'⟩ := bfsInv_step invf hgf
            rw [← hrest] at h1 h2
            have hUle : (v ++ new.map cfg).length ≤ (confUniv root).card :=
              nodup_univ_length_le inv'.v_nodup inv'.v_univ
            have hlv : (v ++ new.map cfg).length = v.length + new.length := by
              simp
            have hlq : (rest ++ new).length = rest.length + new.length := by
              simp
            have hmeas' : (rest ++ new).length +
                2 * ((confUniv root).card - (v ++ new.map cfg).length) < f := by
              simp only [List.length_cons] at hmeas
              omega
            obtain ⟨curr', hc', hreach', hgoal', hopt'⟩ :=
              ih (rest ++ new) (v ++ new.map cfg) (e + 1)
                ⟨D', q1', q2' ++ new, by rw [hrest, List.append_assoc], inv'⟩ hmeas'
            refine ⟨curr', ?_, hreach', hgoal', hopt'⟩
            have hs : shouldStop none (e + 1) = false := rfl
            simp only [bfsAux, hgf, Bool.false_eq_true, if_false, hs, h1, h2]
            exact hc'

/-- The enqueue trace of a BFS run from a duplicate-free visited list has
pairwise distinct keys, all of them fresh. -/
theorem bfsAux_trace (stop : Option StopCb) :
    ∀ (fuel : Nat) (q : List State) (v : List Config) (e : Nat), v.Nodup →
      ((bfsAux stop fuel q v e).2.map cfg).Nodup ∧
      ∀ k ∈ (bfsAux stop fuel q v e).2.map cfg, k ∉ v := by
  intro fuel
  induction fuel with
  | zero =>
      intro q v e _
      simp [bfsAux]
  | succ f ih =>
      intro q v e hnd
      cases q with
      | nil => simp [bfsAux]
      | cons curr rest =>
          by_cases hg : curr.reachedGoal = true
          · simp [bfsAux, hg]
          · have hgf : curr.reachedGoal = false := by simpa using hg
            obtain ⟨new, h1, h2, h3, h4, h5, h6⟩ :=
              bfsFold_spec curr.getNeighbors rest v
            have hdrop :
                (curr.getNeighbors.foldl bfsStep (rest, v)).1.drop rest.length =
                  new := by
              rw [h1]
              exact List.drop_left _ _
            have hnd' : (curr.getNeighbors.foldl bfsStep (rest, v)).2.Nodup := by
              rw [h2]
              refine List.Nodup.append hnd h3 ?_
              intro a ha hc
              exact h4 a hc ha
            by_cases hstop : shouldStop stop (e + 1) = true
            · constructor
              · simp only [bfsAux, hgf, Bool.false_eq_true, if_false, hstop,
                  if_true, hdrop]
                exact h3
              · simp only [bfsAux, hgf, Bool.false_eq_true, if_false, hstop,
                  if_true, hdrop]
                exact h4
            · have hstop' : shouldStop stop (e + 1) = false := by simpa using hstop
              obtain ⟨ih1, ih2⟩ := ih
                (curr.getNeighbors.foldl bfsStep (rest, v)).1
                (curr.getNeighbors.foldl bfsStep (rest, v)).2 (e + 1) hnd'
              have htr : (bfsAux stop (f + 1) (curr :: rest) v e).2 =
                  new ++ (bfsAux stop f
                    (curr.getNeighbors.foldl bfsStep (rest, v)).1
                    (curr.getNeighbors.foldl bfsStep (rest, v)).2 (e + 1)).2 := by
                simp only [bfsAux, hgf, Bool.false_eq_true, if_false, hstop',
                  hdrop]
              rw [htr]
              constructor
              · simp only [List.map_append]
                refine List.Nodup.append h3 ih1 ?_
                intro a ha hc
                have hav : a ∈ (curr.getNeighbors.foldl bfsStep (rest, v)).2 := by
                  rw [h2]
                  exact List.mem_append_right _ ha
                exact ih2 a hc hav
              · intro k hk
                simp only [List.map_append, List.mem_append] at hk
                rcases hk with hk | hk
                · exact h4 k hk
                · intro hkv
                  refine ih2 k hk ?_
                  rw [h2]
                  exact List.mem_append_left _ hkv

/-- C2.  On a solvable puzzle, `bfs_return_path` (run with enough fuel and
no cancel callback) returns a move sequence of exactly the shortest
solution length, and the enqueue-time visited marking means no two states
ever enqueued share a search identity. -/
theorem c2_bfs_shortest (root : State) (hmv : root.move = [])
    (hsol : ∃ m, SolvedIn root m) :
    ∃ (fuel : Nat) (path : List Char) (trace : List State),
      bfsReturnPath none fuel root = (some path, trace) ∧
      SolvedIn root path.length ∧
      (∀ m, SolvedIn root m → path.length ≤ m) ∧
      (trace.map cfg).Nodup := by
  set fuel := 1 + 2 * (confUniv root).card + 2 with hfuel
  have hinv : ∃ D q1 q2, [root] = q1 ++ q2 ∧ BfsInv root D q1 q2 [cfg root] :=
    ⟨0, [root], [], by simp, bfsInv_init root⟩
  have hmeas : ([root] : List State).length +
      2 * ((confUniv root).card - ([cfg root] : List Config).length) < fuel := by
    have h1 : ([root] : List State).length = 1 := rfl
    have h2 : ([cfg root] : List Config).length = 1 := rfl
    rw [h1, h2, hfuel]
    omega
  obtain ⟨curr, hc, hreach, hgoal, hopt⟩ :=
    bfs_main root hsol fuel [root] [cfg root] 0 hinv hmeas
  have hlen : curr.move.length = depth root curr := by
    have hrl := reach_move_length hreach
    have h0 : root.move.length = 0 := by rw [hmv]; rfl
    omega
  have hndroot : ([cfg root] : List Config).Nodup := List.nodup_singleton _
  obtain ⟨htr1, htr2⟩ := bfsAux_trace none fuel [root] [cfg root] 0 hndroot
  refine ⟨fuel, curr.move, root :: (bfsAux none fuel [root] [cfg root] 0).2,
    ?_, ?_, ?_, ?_⟩
  · simp only [bfsReturnPath]
    rw [hc]
  · rw [hlen]
    have : depth root curr = depth root curr := rfl
    exact ⟨curr, hreach, hgoal⟩
  · intro m hm
    rw [hlen]
    exact hopt m hm
  · simp only [List.map_cons]
    refine List.Nodup.cons ?_ htr1
    intro hc'
    exact htr2 (cfg root) hc' (List.mem_singleton.mpr rfl)

theorem c2_bfs_shortest_witness :
    sW.move = [] ∧
      ∃ (fuel : Nat) (path : List Char) (trace : List State),
        bfsReturnPath none fuel sW = (some path, trace) ∧
        SolvedIn sW path.length ∧
        (∀ m, SolvedIn sW m → path.length ≤ m) ∧
        (trace.map cfg).Nodup := by
  have hmem : { sW with
      player := adjA sW.player .down,
      boxes := insert (adjB sW.player .down) (sW.boxes.erase (adjA sW.player .down)),
      move := sW.move ++ [Dir.char .down] } ∈ sW.getNeighbors := by decide
  have hgoal : ({ sW with
      player := adjA sW.player .down,
      boxes := insert (adjB sW.player .down) (sW.boxes.erase (adjA sW.player .down)),
      move := sW.move ++ [Dir.char .down] } : State).reachedGoal = true := by decide
  exact ⟨rfl, c2_bfs_shortest sW rfl
    ⟨1, _, ReachN.tail ReachN.refl hmem, hgoal⟩⟩

end Sokoban
